import Mathlib

/-!
Verification development for the smtlib-rs core: a shallow embedding of the
SMT-LIB AST, its S-expression printer and token-level parser, the `Driver`
request/response protocol, and the high-level `Solver` facade, with theorems
about the round-trip, declaration-tracking and error-propagation behaviour.

The embedding follows the Rust sources: `lowlevel/src/lib.rs` (Driver,
`Term::all_consts`), `smtlib/src/solver.rs` (Solver), `smtlib/src/terms.rs`
(`Sort::from_name`), `smtlib/src/theories/fieldelements.rs` (FieldElement).
The AST data model, printer and parser live in modules that are not part of
the provided sources; those definitions are modelled from the specification
and are marked as such in their doc comments.
-/

set_option maxHeartbeats 1000000

namespace SmtLib

/-- Modelled from the spec: the lexeme kinds of the SMT-LIB lexicon (spec
section 3, `lowlevel/src/lexicon.rs` wrappers), each preserving its surface
string, plus the structural parenthesis tokens. The parser below operates on
sequences of these tokens; string-level lexing is out of this model's scope. -/
inductive Token where
  | lparen : Token
  | rparen : Token
  | numeral (s : String) : Token
  | decimal (s : String) : Token
  | hexadecimal (s : String) : Token
  | binary (s : String) : Token
  | fieldElem (s : String) : Token
  | strLit (s : String) : Token
  | symbol (s : String) : Token
  | keyword (s : String) : Token
  | reserved (s : String) : Token
deriving DecidableEq, Repr

/-- Modelled from the spec: spec constants (numeral, decimal, hex, binary,
string, field-element literal), each a wrapper over its surface string. -/
inductive SpecConstant where
  | numeral (s : String) : SpecConstant
  | decimal (s : String) : SpecConstant
  | hexadecimal (s : String) : SpecConstant
  | binary (s : String) : SpecConstant
  | strLit (s : String) : SpecConstant
  | fieldElem (s : String) : SpecConstant
deriving DecidableEq, Repr

/-- Modelled from the spec: an index of an indexed identifier is a numeral or
a symbol. -/
inductive Index where
  | num (s : String) : Index
  | sym (s : String) : Index
deriving DecidableEq, Repr

/-- Modelled from the spec: identifiers are `Simple(Symbol)` or
`Indexed(Symbol, [Index])` (rendered `(_ sym indices...)`). -/
inductive Identifier where
  | simple (s : String) : Identifier
  | indexed (s : String) (idx : List Index) : Identifier
deriving DecidableEq, Repr

/-- Modelled from the spec: sorts are a bare identifier or a parametric
`(identifier sort+)` application (`ast::Sort::Sort` / parametric). Named
`SmtSort` because `Sort` is reserved in Lean. -/
inductive SmtSort where
  | sort (id : Identifier) : SmtSort
  | parametric (id : Identifier) (args : List SmtSort) : SmtSort
deriving Repr

mutual

/-- Boolean equality for `SmtSort` (structural). -/
def SmtSort.beq : SmtSort → SmtSort → Bool
  | .sort i, .sort j => i = j
  | .parametric i as, .parametric j bs => i = j && SmtSort.beqList as bs
  | _, _ => false

/-- Boolean equality for lists of `SmtSort`. -/
def SmtSort.beqList : List SmtSort → List SmtSort → Bool
  | [], [] => true
  | a :: as, b :: bs => SmtSort.beq a b && SmtSort.beqList as bs
  | _, _ => false

end

theorem SmtSort.beq_refl : ∀ s : SmtSort, SmtSort.beq s s = true := by
  have main : ∀ (s : SmtSort), SmtSort.beq s s = true := by
    intro s
    induction s using SmtSort.rec (motive_2 := fun l => SmtSort.beqList l l = true) with
    | sort i => simp [SmtSort.beq]
    | parametric i as ih => simp [SmtSort.beq, ih]
    | nil => simp [SmtSort.beqList]
    | cons a as iha ihas => simp [SmtSort.beqList, iha, ihas]
  exact main

theorem SmtSort.beqList_refl : ∀ l : List SmtSort, SmtSort.beqList l l = true := by
  intro l
  induction l with
  | nil => simp [SmtSort.beqList]
  | cons a as ih => simp [SmtSort.beqList, SmtSort.beq_refl, ih]

theorem SmtSort.eq_of_beq : ∀ {a b : SmtSort}, SmtSort.beq a b = true → a = b := by
  have main : ∀ (a : SmtSort), (∀ b, SmtSort.beq a b = true → a = b) := by
    intro a
    induction a using SmtSort.rec
      (motive_2 := fun l => ∀ m, SmtSort.beqList l m = true → l = m) with
    | sort i =>
      intro b h
      cases b with
      | sort j => simp [SmtSort.beq] at h; simp [h]
      | parametric j bs => simp [SmtSort.beq] at h
    | parametric i as ih =>
      intro b h
      cases b with
      | sort j => simp [SmtSort.beq] at h
      | parametric j bs =>
        simp only [SmtSort.beq, Bool.and_eq_true, decide_eq_true_eq] at h
        obtain ⟨h1, h2⟩ := h
        subst h1
        have := ih bs h2
        simp [this]
    | nil =>
      rename_i m h
      cases m with
      | nil => rfl
      | cons b bs => simp [SmtSort.beqList] at h
    | cons a as iha ihas =>
      rename_i m h
      cases m with
      | nil => simp [SmtSort.beqList] at h
      | cons b bs =>
        simp only [SmtSort.beqList, Bool.and_eq_true] at h
        obtain ⟨h1, h2⟩ := h
        have e1 := iha b h1
        have e2 := ihas bs h2
        simp [e1, e2]
  intro a b
  exact main a b

instance : DecidableEq SmtSort := fun a b =>
  if h : SmtSort.beq a b = true then
    .isTrue (SmtSort.eq_of_beq h)
  else
    .isFalse (fun e => h (e ▸ SmtSort.beq_refl a))

/-- Modelled from the spec: a qualified identifier is a plain identifier or a
sort-annotated `(as identifier sort)` form. -/
inductive QualIdentifier where
  | identifier (id : Identifier) : QualIdentifier
  | sorted (id : Identifier) (srt : SmtSort) : QualIdentifier
deriving DecidableEq, Repr

/-- Modelled from the spec: the atom of an attribute-value S-expression
(constant, symbol, keyword or reserved word). -/
inductive SExprAtom where
  | const (c : SpecConstant) : SExprAtom
  | sym (s : String) : SExprAtom
  | keyword (s : String) : SExprAtom
  | reserved (s : String) : SExprAtom
deriving DecidableEq, Repr

/-- Modelled from the spec: an S-expression is an atom or a parenthesized
list of S-expressions. -/
inductive SExpr where
  | atom (a : SExprAtom) : SExpr
  | list (es : List SExpr) : SExpr
deriving Repr

/-- Modelled from the spec: an attribute value is a constant, a symbol, or a
parenthesized S-expression list. -/
inductive AttributeValue where
  | const (c : SpecConstant) : AttributeValue
  | sym (s : String) : AttributeValue
  | expr (es : List SExpr) : AttributeValue
deriving Repr

/-- Modelled from the spec: attributes are a flag `:name` or `:name value`. -/
inductive Attribute where
  | flag (k : String) : Attribute
  | withValue (k : String) (v : AttributeValue) : Attribute
deriving Repr

/-- Modelled from the spec: a match pattern is a constructor symbol with zero
or more argument symbols; `(c, [])` renders as the bare symbol `c`, a
non-empty argument list as `(c args...)`. -/
structure Pattern where
  ctor : String
  args : List String
deriving DecidableEq, Repr

/-- Modelled from the spec: the term sum type (spec section 3). -/
inductive Term where
  | const (c : SpecConstant) : Term
  | ident (qi : QualIdentifier) : Term
  | app (qi : QualIdentifier) (args : List Term) : Term
  | lett (bs : List (String × Term)) (body : Term) : Term
  | forallT (vs : List (String × SmtSort)) (body : Term) : Term
  | existsT (vs : List (String × SmtSort)) (body : Term) : Term
  | matchT (scrut : Term) (cases : List (Pattern × Term)) : Term
  | annot (t : Term) (attrs : List Attribute) : Term
deriving Repr

/-- Modelled from the spec: the token emitted for a spec constant (render
preserves the surface string). -/
def SpecConstant.renderTok : SpecConstant → Token
  | .numeral s => .numeral s
  | .decimal s => .decimal s
  | .hexadecimal s => .hexadecimal s
  | .binary s => .binary s
  | .strLit s => .strLit s
  | .fieldElem s => .fieldElem s

/-- Modelled from the spec: an index renders as a numeral or symbol token. -/
def Index.renderTok : Index → Token
  | .num s => .numeral s
  | .sym s => .symbol s

/-- Modelled from the spec: `Indexed(sym, indices)` renders as
`(_ sym indices...)`; a simple identifier renders as its symbol. -/
def Identifier.render : Identifier → List Token
  | .simple s => [.symbol s]
  | .indexed s idx =>
    [.lparen, .reserved "_", .symbol s] ++ idx.map Index.renderTok ++ [.rparen]

mutual

/-- Modelled from the spec: a bare sort renders as its identifier, a
parametric sort as `(id args...)`. -/
def SmtSort.render : SmtSort → List Token
  | .sort id => id.render
  | .parametric id args => .lparen :: (id.render ++ SmtSort.renderList args ++ [.rparen])

/-- Concatenated rendering of a list of sorts. -/
def SmtSort.renderList : List SmtSort → List Token
  | [] => []
  | s :: ss => s.render ++ SmtSort.renderList ss

end

/-- Modelled from the spec: a plain qualified identifier renders as its
identifier, a sorted one as `(as id sort)`. -/
def QualIdentifier.render : QualIdentifier → List Token
  | .identifier id => id.render
  | .sorted id s => [.lparen, .reserved "as"] ++ id.render ++ s.render ++ [.rparen]

/-- Modelled from the spec: token of an S-expression atom. -/
def SExprAtom.renderTok : SExprAtom → Token
  | .const c => c.renderTok
  | .sym s => .symbol s
  | .keyword s => .keyword s
  | .reserved s => .reserved s

mutual

/-- Modelled from the spec: S-expression rendering. -/
def SExpr.render : SExpr → List Token
  | .atom a => [a.renderTok]
  | .list es => .lparen :: (SExpr.renderList es ++ [.rparen])

/-- Concatenated rendering of a list of S-expressions. -/
def SExpr.renderList : List SExpr → List Token
  | [] => []
  | e :: es => e.render ++ SExpr.renderList es

end

/-- Modelled from the spec: attribute value rendering. -/
def AttributeValue.render : AttributeValue → List Token
  | .const c => [c.renderTok]
  | .sym s => [.symbol s]
  | .expr es => .lparen :: (SExpr.renderList es ++ [.rparen])

/-- Modelled from the spec: `:name` or `:name value`. -/
def Attribute.render : Attribute → List Token
  | .flag k => [.keyword k]
  | .withValue k v => .keyword k :: v.render

/-- Concatenated rendering of a list of attributes. -/
def Attribute.renderAll : List Attribute → List Token
  | [] => []
  | a :: as => a.render ++ Attribute.renderAll as

/-- Modelled from the spec: a pattern with no argument renders as a bare
symbol, otherwise as `(ctor args...)`. -/
def Pattern.render : Pattern → List Token
  | ⟨c, []⟩ => [.symbol c]
  | ⟨c, a :: as⟩ => [.lparen, .symbol c, .symbol a] ++ as.map Token.symbol ++ [.rparen]

/-- Modelled from the spec: a sorted variable renders as `(name sort)`. -/
def renderVar (v : String × SmtSort) : List Token :=
  [.lparen, .symbol v.1] ++ v.2.render ++ [.rparen]

/-- Concatenated rendering of a quantifier's sorted variables. -/
def renderVars : List (String × SmtSort) → List Token
  | [] => []
  | v :: vs => renderVar v ++ renderVars vs

mutual

/-- Modelled from the spec (section 4.3): term rendering in canonical
SMT-LIB S-expression shape. -/
def Term.render : Term → List Token
  | .const c => [c.renderTok]
  | .ident qi => qi.render
  | .app qi args => .lparen :: (qi.render ++ Term.renderList args ++ [.rparen])
  | .lett bs body =>
    [.lparen, .reserved "let", .lparen] ++ Term.renderBindings bs ++ [.rparen]
      ++ body.render ++ [.rparen]
  | .forallT vs body =>
    [.lparen, .reserved "forall", .lparen] ++ renderVars vs ++ [.rparen]
      ++ body.render ++ [.rparen]
  | .existsT vs body =>
    [.lparen, .reserved "exists", .lparen] ++ renderVars vs ++ [.rparen]
      ++ body.render ++ [.rparen]
  | .matchT scrut cases =>
    [.lparen, .reserved "match"] ++ scrut.render ++ [.lparen]
      ++ Term.renderCases cases ++ [.rparen, .rparen]
  | .annot t attrs =>
    [.lparen, .reserved "!"] ++ t.render ++ Attribute.renderAll attrs ++ [.rparen]

/-- Concatenated rendering of application arguments. -/
def Term.renderList : List Term → List Token
  | [] => []
  | t :: ts => t.render ++ Term.renderList ts

/-- Concatenated rendering of let bindings, each as `(name term)`. -/
def Term.renderBindings : List (String × Term) → List Token
  | [] => []
  | (s, t) :: bs => [.lparen, .symbol s] ++ t.render ++ [.rparen] ++ Term.renderBindings bs

/-- Concatenated rendering of match cases, each as `(pattern term)`. -/
def Term.renderCases : List (Pattern × Term) → List Token
  | [] => []
  | (p, t) :: cs => .lparen :: (p.render ++ t.render ++ [.rparen]) ++ Term.renderCases cs

end

/-- Fuel bound for parsing an index list (one call per element plus the
closing parenthesis step). -/
def needIdxList : List Index → Nat
  | [] => 1
  | _ :: is => 1 + needIdxList is

/-- Fuel bound for parsing an identifier. -/
def Identifier.need : Identifier → Nat
  | .simple _ => 1
  | .indexed _ is => 1 + needIdxList is

mutual

/-- Fuel bound for parsing a sort. -/
def SmtSort.need : SmtSort → Nat
  | .sort id => 1 + id.need
  | .parametric id args => 1 + id.need + SmtSort.needList args

/-- Fuel bound for parsing a sort list (with its closing parenthesis). -/
def SmtSort.needList : List SmtSort → Nat
  | [] => 1
  | s :: ss => 1 + s.need + SmtSort.needList ss

end

/-- Fuel bound for parsing a qualified identifier. -/
def QualIdentifier.need : QualIdentifier → Nat
  | .identifier id => 1 + id.need
  | .sorted id s => 1 + id.need + s.need

mutual

/-- Fuel bound for parsing an S-expression. -/
def SExpr.need : SExpr → Nat
  | .atom _ => 1
  | .list es => 1 + SExpr.needList es

/-- Fuel bound for parsing an S-expression list (with closing parenthesis). -/
def SExpr.needList : List SExpr → Nat
  | [] => 1
  | e :: es => 1 + e.need + SExpr.needList es

end

/-- Fuel bound for parsing an attribute value. -/
def AttributeValue.need : AttributeValue → Nat
  | .const _ => 1
  | .sym _ => 1
  | .expr es => 1 + SExpr.needList es

/-- Fuel bound for parsing an attribute. -/
def Attribute.need : Attribute → Nat
  | .flag _ => 1
  | .withValue _ v => 1 + v.need

/-- Fuel bound for parsing an attribute list (with closing parenthesis). -/
def Attribute.needAll : List Attribute → Nat
  | [] => 1
  | a :: as => 1 + a.need + Attribute.needAll as

/-- Fuel bound for parsing a pattern. -/
def Pattern.need : Pattern → Nat
  | ⟨_, as⟩ => 2 + as.length

/-- Fuel bound for parsing a quantifier's sorted-variable list. -/
def needVars : List (String × SmtSort) → Nat
  | [] => 1
  | (_, srt) :: vs => 2 + srt.need + needVars vs

mutual

/-- Fuel bound for parsing a term. -/
def Term.need : Term → Nat
  | .const _ => 1
  | .ident qi => 1 + qi.need
  | .app qi args => 1 + qi.need + Term.needList args
  | .lett bs body => 1 + Term.needBindings bs + body.need
  | .forallT vs body => 1 + needVars vs + body.need
  | .existsT vs body => 1 + needVars vs + body.need
  | .matchT scrut cases => 1 + scrut.need + Term.needCases cases
  | .annot t attrs => 1 + t.need + Attribute.needAll attrs

/-- Fuel bound for parsing an argument list (with closing parenthesis). -/
def Term.needList : List Term → Nat
  | [] => 1
  | t :: ts => 1 + t.need + Term.needList ts

/-- Fuel bound for parsing a binding list (with closing parenthesis). -/
def Term.needBindings : List (String × Term) → Nat
  | [] => 1
  | (_, t) :: bs => 2 + t.need + Term.needBindings bs

/-- Fuel bound for parsing a case list (with closing parenthesis). -/
def Term.needCases : List (Pattern × Term) → Nat
  | [] => 1
  | (p, t) :: cs => 2 + p.need + t.need + Term.needCases cs

end

/-- Well-formedness of an identifier: an indexed identifier has at least one
index (the grammar is `(_ sym index+)`). -/
def Identifier.wf : Identifier → Bool
  | .simple _ => true
  | .indexed _ is => !is.isEmpty

mutual

/-- Well-formedness of a sort: a parametric sort has at least one argument
(the grammar is `(identifier sort+)`). -/
def SmtSort.wf : SmtSort → Bool
  | .sort id => id.wf
  | .parametric id args => id.wf && !args.isEmpty && SmtSort.wfList args

/-- Well-formedness of every sort in a list. -/
def SmtSort.wfList : List SmtSort → Bool
  | [] => true
  | s :: ss => s.wf && SmtSort.wfList ss

end

/-- Well-formedness of a qualified identifier. -/
def QualIdentifier.wf : QualIdentifier → Bool
  | .identifier id => id.wf
  | .sorted id s => id.wf && s.wf

/-- Well-formedness of the sorts in a quantifier's variable list. -/
def wfVars : List (String × SmtSort) → Bool
  | [] => true
  | (_, srt) :: vs => srt.wf && wfVars vs

mutual

/-- Well-formedness of a term: exactly the shape constraints of values the
parser can produce (applications have at least one argument, binders at
least one binding/variable, matches at least one case, annotations at least
one attribute, and the constraints on embedded identifiers and sorts). -/
def Term.wf : Term → Bool
  | .const _ => true
  | .ident qi => qi.wf
  | .app qi args => qi.wf && !args.isEmpty && Term.wfList args
  | .lett bs body => !bs.isEmpty && Term.wfBindings bs && body.wf
  | .forallT vs body => !vs.isEmpty && wfVars vs && body.wf
  | .existsT vs body => !vs.isEmpty && wfVars vs && body.wf
  | .matchT scrut cases => scrut.wf && !cases.isEmpty && Term.wfCases cases
  | .annot t attrs => t.wf && !attrs.isEmpty

/-- Well-formedness of every term in a list. -/
def Term.wfList : List Term → Bool
  | [] => true
  | t :: ts => t.wf && Term.wfList ts

/-- Well-formedness of every bound term in a binding list. -/
def Term.wfBindings : List (String × Term) → Bool
  | [] => true
  | (_, t) :: bs => t.wf && Term.wfBindings bs

/-- Well-formedness of every case body in a case list. -/
def Term.wfCases : List (Pattern × Term) → Bool
  | [] => true
  | (_, t) :: cs => t.wf && Term.wfCases cs

end

mutual

/-- Modelled from the spec (section 4.2): one or more indices followed by a
closing parenthesis (which is consumed). -/
def parseIndexList1 : Nat → List Token → Option (List Index × List Token)
  | 0, _ => none
  | f + 1, .numeral s :: r =>
    match parseIndexRest f r with
    | some (is, r') => some (.num s :: is, r')
    | none => none
  | f + 1, .symbol s :: r =>
    match parseIndexRest f r with
    | some (is, r') => some (.sym s :: is, r')
    | none => none
  | _ + 1, _ => none

/-- Remaining indices up to and including the closing parenthesis. -/
def parseIndexRest : Nat → List Token → Option (List Index × List Token)
  | 0, _ => none
  | _ + 1, .rparen :: r => some ([], r)
  | f + 1, .numeral s :: r =>
    match parseIndexRest f r with
    | some (is, r') => some (.num s :: is, r')
    | none => none
  | f + 1, .symbol s :: r =>
    match parseIndexRest f r with
    | some (is, r') => some (.sym s :: is, r')
    | none => none
  | _ + 1, _ => none

/-- Modelled from the spec: an identifier is a symbol or `(_ sym index+)`. -/
def parseIdentifier : Nat → List Token → Option (Identifier × List Token)
  | 0, _ => none
  | _ + 1, .symbol s :: r => some (.simple s, r)
  | f + 1, .lparen :: .reserved "_" :: .symbol s :: r =>
    match parseIndexList1 f r with
    | some (is, r') => some (.indexed s is, r')
    | none => none
  | _ + 1, _ => none

/-- Modelled from the spec: a sort is an identifier or `(identifier sort+)`. -/
def parseSort : Nat → List Token → Option (SmtSort × List Token)
  | 0, _ => none
  | _ + 1, .symbol s :: r => some (.sort (.simple s), r)
  | f + 1, .lparen :: .reserved "_" :: r =>
    match parseIdentifier f (.lparen :: .reserved "_" :: r) with
    | some (id, r') => some (.sort id, r')
    | none => none
  | f + 1, .lparen :: r =>
    match parseIdentifier f r with
    | some (id, r1) =>
      match parseSortList1 f r1 with
      | some (args, r2) => some (.parametric id args, r2)
      | none => none
    | none => none
  | _ + 1, _ => none

/-- One or more sorts followed by the closing parenthesis (consumed). -/
def parseSortList1 : Nat → List Token → Option (List SmtSort × List Token)
  | 0, _ => none
  | f + 1, toks =>
    match parseSort f toks with
    | some (s, r) =>
      match parseSortRest f r with
      | some (ss, r') => some (s :: ss, r')
      | none => none
    | none => none

/-- Remaining sorts up to and including the closing parenthesis. -/
def parseSortRest : Nat → List Token → Option (List SmtSort × List Token)
  | 0, _ => none
  | _ + 1, .rparen :: r => some ([], r)
  | f + 1, toks =>
    match parseSort f toks with
    | some (s, r) =>
      match parseSortRest f r with
      | some (ss, r') => some (s :: ss, r')
      | none => none
    | none => none

/-- Modelled from the spec: a qualified identifier is an identifier or
`(as identifier sort)`. -/
def parseQualIdentifier : Nat → List Token → Option (QualIdentifier × List Token)
  | 0, _ => none
  | _ + 1, .symbol s :: r => some (.identifier (.simple s), r)
  | f + 1, .lparen :: .reserved "_" :: r =>
    match parseIdentifier f (.lparen :: .reserved "_" :: r) with
    | some (id, r') => some (.identifier id, r')
    | none => none
  | f + 1, .lparen :: .reserved "as" :: r =>
    match parseIdentifier f r with
    | some (id, r1) =>
      match parseSort f r1 with
      | some (s, .rparen :: r2) => some (.sorted id s, r2)
      | _ => none
    | none => none
  | _ + 1, _ => none

/-- Modelled from the spec: an S-expression is an atom or a parenthesized
list. -/
def parseSExpr : Nat → List Token → Option (SExpr × List Token)
  | 0, _ => none
  | _ + 1, .numeral s :: r => some (.atom (.const (.numeral s)), r)
  | _ + 1, .decimal s :: r => some (.atom (.const (.decimal s)), r)
  | _ + 1, .hexadecimal s :: r => some (.atom (.const (.hexadecimal s)), r)
  | _ + 1, .binary s :: r => some (.atom (.const (.binary s)), r)
  | _ + 1, .strLit s :: r => some (.atom (.const (.strLit s)), r)
  | _ + 1, .fieldElem s :: r => some (.atom (.const (.fieldElem s)), r)
  | _ + 1, .symbol s :: r => some (.atom (.sym s), r)
  | _ + 1, .keyword s :: r => some (.atom (.keyword s), r)
  | _ + 1, .reserved s :: r => some (.atom (.reserved s), r)
  | f + 1, .lparen :: r =>
    match parseSExprRest f r with
    | some (es, r') => some (.list es, r')
    | none => none
  | _ + 1, _ => none

/-- Zero or more S-expressions up to and including the closing parenthesis. -/
def parseSExprRest : Nat → List Token → Option (List SExpr × List Token)
  | 0, _ => none
  | _ + 1, .rparen :: r => some ([], r)
  | f + 1, toks =>
    match parseSExpr f toks with
    | some (e, r) =>
      match parseSExprRest f r with
      | some (es, r') => some (e :: es, r')
      | none => none
    | none => none

/-- Modelled from the spec: an attribute value is a constant, a symbol or a
parenthesized S-expression list. -/
def parseAttributeValue : Nat → List Token → Option (AttributeValue × List Token)
  | 0, _ => none
  | _ + 1, .numeral s :: r => some (.const (.numeral s), r)
  | _ + 1, .decimal s :: r => some (.const (.decimal s), r)
  | _ + 1, .hexadecimal s :: r => some (.const (.hexadecimal s), r)
  | _ + 1, .binary s :: r => some (.const (.binary s), r)
  | _ + 1, .strLit s :: r => some (.const (.strLit s), r)
  | _ + 1, .fieldElem s :: r => some (.const (.fieldElem s), r)
  | _ + 1, .symbol s :: r => some (.sym s, r)
  | f + 1, .lparen :: r =>
    match parseSExprRest f r with
    | some (es, r') => some (.expr es, r')
    | none => none
  | _ + 1, _ => none

/-- Modelled from the spec: a keyword alone (when followed by another
keyword or the closing parenthesis) or a keyword with a value. -/
def parseAttribute : Nat → List Token → Option (Attribute × List Token)
  | 0, _ => none
  | f + 1, .keyword k :: r =>
    match r with
    | .rparen :: _ => some (.flag k, r)
    | .keyword _ :: _ => some (.flag k, r)
    | _ =>
      match parseAttributeValue f r with
      | some (v, r') => some (.withValue k v, r')
      | none => none
  | _ + 1, _ => none

/-- One or more attributes followed by the closing parenthesis (consumed). -/
def parseAttributeList1 : Nat → List Token → Option (List Attribute × List Token)
  | 0, _ => none
  | f + 1, toks =>
    match parseAttribute f toks with
    | some (a, r) =>
      match parseAttributeRest f r with
      | some (as, r') => some (a :: as, r')
      | none => none
    | none => none

/-- Remaining attributes up to and including the closing parenthesis. -/
def parseAttributeRest : Nat → List Token → Option (List Attribute × List Token)
  | 0, _ => none
  | _ + 1, .rparen :: r => some ([], r)
  | f + 1, toks =>
    match parseAttribute f toks with
    | some (a, r) =>
      match parseAttributeRest f r with
      | some (as, r') => some (a :: as, r')
      | none => none
    | none => none

/-- Modelled from the spec: a pattern is a symbol or `(sym sym+)`. -/
def parsePattern : Nat → List Token → Option (Pattern × List Token)
  | 0, _ => none
  | _ + 1, .symbol c :: r => some (⟨c, []⟩, r)
  | f + 1, .lparen :: .symbol c :: .symbol a :: r =>
    match parseSymbolRest f r with
    | some (ss, r') => some (⟨c, a :: ss⟩, r')
    | none => none
  | _ + 1, _ => none

/-- Remaining pattern symbols up to and including the closing parenthesis. -/
def parseSymbolRest : Nat → List Token → Option (List String × List Token)
  | 0, _ => none
  | _ + 1, .rparen :: r => some ([], r)
  | f + 1, .symbol s :: r =>
    match parseSymbolRest f r with
    | some (ss, r') => some (s :: ss, r')
    | none => none
  | _ + 1, _ => none

/-- Modelled from the spec (sections 4.2 and 3): recursive-descent term
parser over tokens, dispatching on the next one or two tokens. -/
def parseTerm : Nat → List Token → Option (Term × List Token)
  | 0, _ => none
  | _ + 1, .numeral s :: r => some (.const (.numeral s), r)
  | _ + 1, .decimal s :: r => some (.const (.decimal s), r)
  | _ + 1, .hexadecimal s :: r => some (.const (.hexadecimal s), r)
  | _ + 1, .binary s :: r => some (.const (.binary s), r)
  | _ + 1, .strLit s :: r => some (.const (.strLit s), r)
  | _ + 1, .fieldElem s :: r => some (.const (.fieldElem s), r)
  | _ + 1, .symbol s :: r => some (.ident (.identifier (.simple s)), r)
  | f + 1, .lparen :: .reserved "_" :: r =>
    match parseIdentifier f (.lparen :: .reserved "_" :: r) with
    | some (id, r') => some (.ident (.identifier id), r')
    | none => none
  | f + 1, .lparen :: .reserved "as" :: r =>
    match parseQualIdentifier f (.lparen :: .reserved "as" :: r) with
    | some (qi, r') => some (.ident qi, r')
    | none => none
  | f + 1, .lparen :: .reserved "let" :: .lparen :: r =>
    match parseBindingList1 f r with
    | some (bs, r1) =>
      match parseTerm f r1 with
      | some (body, .rparen :: r2) => some (.lett bs body, r2)
      | _ => none
    | none => none
  | f + 1, .lparen :: .reserved "forall" :: .lparen :: r =>
    match parseVarList1 f r with
    | some (vs, r1) =>
      match parseTerm f r1 with
      | some (body, .rparen :: r2) => some (.forallT vs body, r2)
      | _ => none
    | none => none
  | f + 1, .lparen :: .reserved "exists" :: .lparen :: r =>
    match parseVarList1 f r with
    | some (vs, r1) =>
      match parseTerm f r1 with
      | some (body, .rparen :: r2) => some (.existsT vs body, r2)
      | _ => none
    | none => none
  | f + 1, .lparen :: .reserved "match" :: r =>
    match parseTerm f r with
    | some (scrut, .lparen :: r1) =>
      match parseCaseList1 f r1 with
      | some (cs, .rparen :: r2) => some (.matchT scrut cs, r2)
      | _ => none
    | _ => none
  | f + 1, .lparen :: .reserved "!" :: r =>
    match parseTerm f r with
    | some (t, r1) =>
      match parseAttributeList1 f r1 with
      | some (as, r2) => some (.annot t as, r2)
      | none => none
    | none => none
  | f + 1, .lparen :: .symbol s :: r =>
    match parseTermList1 f r with
    | some (args, r') => some (.app (.identifier (.simple s)) args, r')
    | none => none
  | f + 1, .lparen :: .lparen :: r =>
    match parseQualIdentifier f (.lparen :: r) with
    | some (qi, r1) =>
      match parseTermList1 f r1 with
      | some (args, r2) => some (.app qi args, r2)
      | none => none
    | none => none
  | _ + 1, _ => none

/-- One or more argument terms followed by the closing parenthesis
(consumed). -/
def parseTermList1 : Nat → List Token → Option (List Term × List Token)
  | 0, _ => none
  | f + 1, toks =>
    match parseTerm f toks with
    | some (t, r) =>
      match parseTermRest f r with
      | some (ts, r') => some (t :: ts, r')
      | none => none
    | none => none

/-- Remaining argument terms up to and including the closing parenthesis. -/
def parseTermRest : Nat → List Token → Option (List Term × List Token)
  | 0, _ => none
  | _ + 1, .rparen :: r => some ([], r)
  | f + 1, toks =>
    match parseTerm f toks with
    | some (t, r) =>
      match parseTermRest f r with
      | some (ts, r') => some (t :: ts, r')
      | none => none
    | none => none

/-- A let binding `(name term)`. -/
def parseBinding : Nat → List Token → Option ((String × Term) × List Token)
  | 0, _ => none
  | f + 1, .lparen :: .symbol s :: r =>
    match parseTerm f r with
    | some (t, .rparen :: r') => some ((s, t), r')
    | _ => none
  | _ + 1, _ => none

/-- One or more bindings followed by the closing parenthesis (consumed). -/
def parseBindingList1 : Nat → List Token → Option (List (String × Term) × List Token)
  | 0, _ => none
  | f + 1, toks =>
    match parseBinding f toks with
    | some (b, r) =>
      match parseBindingRest f r with
      | some (bs, r') => some (b :: bs, r')
      | none => none
    | none => none

/-- Remaining bindings up to and including the closing parenthesis. -/
def parseBindingRest : Nat → List Token → Option (List (String × Term) × List Token)
  | 0, _ => none
  | _ + 1, .rparen :: r => some ([], r)
  | f + 1, toks =>
    match parseBinding f toks with
    | some (b, r) =>
      match parseBindingRest f r with
      | some (bs, r') => some (b :: bs, r')
      | none => none
    | none => none

/-- A sorted variable `(name sort)`. -/
def parseSortedVar : Nat → List Token → Option ((String × SmtSort) × List Token)
  | 0, _ => none
  | f + 1, .lparen :: .symbol s :: r =>
    match parseSort f r with
    | some (srt, .rparen :: r') => some ((s, srt), r')
    | _ => none
  | _ + 1, _ => none

/-- One or more sorted variables followed by the closing parenthesis
(consumed). -/
def parseVarList1 : Nat → List Token → Option (List (String × SmtSort) × List Token)
  | 0, _ => none
  | f + 1, toks =>
    match parseSortedVar f toks with
    | some (v, r) =>
      match parseVarRest f r with
      | some (vs, r') => some (v :: vs, r')
      | none => none
    | none => none

/-- Remaining sorted variables up to and including the closing parenthesis. -/
def parseVarRest : Nat → List Token → Option (List (String × SmtSort) × List Token)
  | 0, _ => none
  | _ + 1, .rparen :: r => some ([], r)
  | f + 1, toks =>
    match parseSortedVar f toks with
    | some (v, r) =>
      match parseVarRest f r with
      | some (vs, r') => some (v :: vs, r')
      | none => none
    | none => none

/-- A match case `(pattern term)`. -/
def parseCase : Nat → List Token → Option ((Pattern × Term) × List Token)
  | 0, _ => none
  | f + 1, .lparen :: r =>
    match parsePattern f r with
    | some (p, r1) =>
      match parseTerm f r1 with
      | some (t, .rparen :: r2) => some ((p, t), r2)
      | _ => none
    | none => none
  | _ + 1, _ => none

/-- One or more cases followed by the closing parenthesis (consumed). -/
def parseCaseList1 : Nat → List Token → Option (List (Pattern × Term) × List Token)
  | 0, _ => none
  | f + 1, toks =>
    match parseCase f toks with
    | some (c, r) =>
      match parseCaseRest f r with
      | some (cs, r') => some (c :: cs, r')
      | none => none
    | none => none

/-- Remaining cases up to and including the closing parenthesis. -/
def parseCaseRest : Nat → List Token → Option (List (Pattern × Term) × List Token)
  | 0, _ => none
  | _ + 1, .rparen :: r => some ([], r)
  | f + 1, toks =>
    match parseCase f toks with
    | some (c, r) =>
      match parseCaseRest f r with
      | some (cs, r') => some (c :: cs, r')
      | none => none
    | none => none

end

/-- Modelled from the spec: the top-level term parser. It runs the
recursive-descent parser with ample fuel (recursion depth is bounded by the
token count) and accepts exactly when the whole input is consumed. -/
def parse (toks : List Token) : Option Term :=
  match parseTerm (5 * toks.length + 2) toks with
  | some (t, []) => some t
  | _ => none

/-- Modelled from the spec: the textual surface of a token (keywords carry
their leading colon, string literals their quotes). -/
def Token.text : Token → String
  | .lparen => "("
  | .rparen => ")"
  | .numeral s => s
  | .decimal s => s
  | .hexadecimal s => s
  | .binary s => s
  | .fieldElem s => s
  | .strLit s => "\"" ++ s ++ "\""
  | .symbol s => s
  | .keyword s => ":" ++ s
  | .reserved s => s

/-- Helper for `detok`: the flag records whether a space is owed before the
next token (no space after an opening or before a closing parenthesis). -/
def detokAux : List Token → Bool → String
  | [], _ => ""
  | .lparen :: ts, sp => (if sp then " (" else "(") ++ detokAux ts false
  | .rparen :: ts, _ => ")" ++ detokAux ts true
  | t :: ts, sp => (if sp then " " ++ t.text else t.text) ++ detokAux ts true

/-- Modelled from the spec: S-expression text of a token sequence, with
single-space separators. -/
def detok (ts : List Token) : String :=
  detokAux ts false

/-- Decimal digit character for a digit value below ten. -/
def digitChar48 (d : Nat) : Char :=
  Char.ofNat (48 + d)

/-- Modelled from the spec: decimal rendering of an unbounded natural
number (the `Display` of `BigUint`). -/
def natRepr (n : Nat) : String :=
  if n = 0 then "0" else ⟨(Nat.digits 10 n).reverse.map digitChar48⟩

/-- Solver option payloads used by the core (`ast::Option::PrintSuccess`). -/
inductive SmtOption where
  | printSuccess (b : Bool) : SmtOption
deriving DecidableEq, Repr

/-- The commands issued by the Driver and Solver under verification; the
remaining SMT-LIB commands of the spec's enumeration are not needed for the
claims about `lib.rs`/`solver.rs`. -/
inductive Command where
  | assert (t : Term) : Command
  | checkSat : Command
  | declareConst (sym : String) (srt : SmtSort) : Command
  | defineSort (sym : String) (params : List String) (srt : SmtSort) : Command
  | getModel : Command
  | setLogic (logic : String) : Command
  | setOption (opt : SmtOption) : Command
deriving Repr

/-- Modelled from the spec: command rendering to tokens. -/
def Command.render : Command → List Token
  | .assert t => [.lparen, .symbol "assert"] ++ t.render ++ [.rparen]
  | .checkSat => [.lparen, .symbol "check-sat", .rparen]
  | .declareConst sym srt =>
    [.lparen, .symbol "declare-const", .symbol sym] ++ srt.render ++ [.rparen]
  | .defineSort sym params srt =>
    [.lparen, .symbol "define-sort", .symbol sym, .lparen] ++ params.map Token.symbol
      ++ [.rparen] ++ srt.render ++ [.rparen]
  | .getModel => [.lparen, .symbol "get-model", .rparen]
  | .setLogic logic => [.lparen, .symbol "set-logic", .symbol logic, .rparen]
  | .setOption (.printSuccess b) =>
    [.lparen, .symbol "set-option", .keyword "print-success",
      .symbol (if b then "true" else "false"), .rparen]

/-- The command text sent over the wire (`format!("{cmd}")` in the source). -/
def Command.toText (c : Command) : String :=
  detok c.render

/-- The three structured replies to `(check-sat)`. -/
inductive CheckSatResponse where
  | sat : CheckSatResponse
  | unsat : CheckSatResponse
  | unknown : CheckSatResponse
deriving DecidableEq, Repr

/-- Modelled from the spec: the reply to `(get-model)` is kept opaque as its
raw text; the Solver only forwards it into a `Model`. -/
structure ModelResponse where
  raw : String
deriving DecidableEq, Repr

/-- Command-specific success responses used by the core under verification. -/
inductive SpecificSuccessResponse where
  | checkSatResponse (r : CheckSatResponse) : SpecificSuccessResponse
  | getModelResponse (m : ModelResponse) : SpecificSuccessResponse
deriving DecidableEq, Repr

/-- The generic response grammar `Success | SpecificSuccessResponse |
Unsupported | Error`. -/
inductive GeneralResponse where
  | success : GeneralResponse
  | specificSuccessResponse (r : SpecificSuccessResponse) : GeneralResponse
  | unsupported : GeneralResponse
  | error (msg : String) : GeneralResponse
deriving DecidableEq, Repr

/-- Modelled from the spec: a parse failure carrying the offending text. -/
inductive ParseError where
  | malformed (txt : String) : ParseError
deriving DecidableEq, Repr

/-- A transport failure of the backend. -/
inductive IOError where
  | eof : IOError
deriving DecidableEq, Repr

/-- The error taxonomy visible to Driver/Solver callers: parse failures,
transport failures, and solver-reported errors tagged with the offending
command text (`Error::Smt(msg, cmd)`). -/
inductive Error where
  | parse (e : ParseError) : Error
  | io (e : IOError) : Error
  | smt (msg : String) (cmd : String) : Error
deriving DecidableEq, Repr

/-- Whether `s` begins with `pre`, computed over the character lists. -/
def strStartsWith (s pre : String) : Bool :=
  decide (s.data.take pre.data.length = pre.data)

/-- Whether `s` ends with `suf`, computed over the character lists. -/
def strEndsWith (s suf : String) : Bool :=
  decide (suf.data.length ≤ s.data.length)
    && decide (s.data.drop (s.data.length - suf.data.length) = suf.data)

/-- Modelled from the spec: recognize `(error "msg")` and extract the
message between the quotes. -/
def errorMsgOf (txt : String) : Option String :=
  if strStartsWith txt "(error \"" && strEndsWith txt "\")"
      && decide (10 ≤ txt.data.length) then
    some ⟨(txt.data.drop 8).take (txt.data.length - 10)⟩
  else
    none

/-- Modelled from the spec: the command-specific response grammars attempted
by the generic response parser once the acknowledgement forms fail. -/
def specificOf (txt : String) : Option SpecificSuccessResponse :=
  if txt = "sat" then some (.checkSatResponse .sat)
  else if txt = "unsat" then some (.checkSatResponse .unsat)
  else if txt = "unknown" then some (.checkSatResponse .unknown)
  else if strStartsWith txt "(" && !strStartsWith txt "(error" then
    some (.getModelResponse ⟨txt⟩)
  else
    none

/-- Modelled from the spec (section 4.2): `GeneralResponse::parse` tries
`success`, `unsupported` and `(error ...)` first, then the specific
grammars. -/
def GeneralResponse.parseText (txt : String) : Except ParseError GeneralResponse :=
  if txt = "success" then .ok .success
  else if txt = "unsupported" then .ok .unsupported
  else
    match errorMsgOf txt with
    | some msg => .ok (.error msg)
    | none =>
      match specificOf txt with
      | some r => .ok (.specificSuccessResponse r)
      | none => .error (.malformed txt)

/-- Modelled from the spec (sections 2 and 4.5): the command-specific
response parser selected by the outbound command's tag; commands without a
structured reply yield `none` so the Driver falls back to the generic
grammar, and a text that does not match the specific grammar also falls
back. -/
def Command.parse_response (c : Command) (txt : String) :
    Except ParseError (Option SpecificSuccessResponse) :=
  match c with
  | .checkSat =>
    if txt = "sat" then .ok (some (.checkSatResponse .sat))
    else if txt = "unsat" then .ok (some (.checkSatResponse .unsat))
    else if txt = "unknown" then .ok (some (.checkSatResponse .unknown))
    else .ok none
  | .getModel =>
    if strStartsWith txt "(" && !strStartsWith txt "(error" then
      .ok (some (.getModelResponse ⟨txt⟩))
    else .ok none
  | _ => .ok none

/-- The Driver's state (`lowlevel/src/lib.rs`): the backend is modelled as
the script of response texts it will deliver, one per command, together with
the log of commands sent so far. -/
structure DriverState where
  script : List String
  sent : List Command
  verbose : Bool
deriving Repr

/-- `Driver::exec` (`lowlevel/src/lib.rs` lines 54-65): send the command,
take the backend's response text, try the command-specific parser first and
wrap its result as `SpecificSuccessResponse`; otherwise parse under the
generic grammar; transport and parse failures are propagated. -/
def DriverState.exec (d : DriverState) (cmd : Command) :
    Except Error (GeneralResponse × DriverState) :=
  match d.script with
  | [] => .error (.io .eof)
  | txt :: rest =>
    let d' : DriverState := { d with script := rest, sent := d.sent ++ [cmd] }
    match cmd.parse_response txt with
    | .error e => .error (.parse e)
    | .ok (some r) => .ok (.specificSuccessResponse r, d')
    | .ok none =>
      match GeneralResponse.parseText txt with
      | .error e => .error (.parse e)
      | .ok g => .ok (g, d')

/-- `Driver::new` (`lowlevel/src/lib.rs` lines 47-53): construct the state,
execute `(set-option :print-success true)` propagating only `exec` errors,
and discard the parsed response value. -/
def DriverState.new (script : List String) (verbose : Bool) :
    Except Error DriverState :=
  let d : DriverState := { script := script, sent := [], verbose := verbose }
  match d.exec (.setOption (.printSuccess true)) with
  | .error e => .error e
  | .ok (_, d') => .ok d'

mutual

/-- `Term::all_consts` (`lowlevel/src/lib.rs` lines 101-116): collect the
qualified identifiers of a term. Spec constants contribute nothing, an
identifier contributes itself, an application contributes its head and its
arguments' collections; `Forall` contributes nothing (the source returns an
empty set), and `Let`, `Exists`, `Match` and `Annotation` hit `todo!` —
modelled as `none`. The Rust `HashSet` is modelled by a list up to
membership; duplicates are harmless downstream. -/
def Term.all_consts : Term → Option (List QualIdentifier)
  | .const _ => some []
  | .ident q => some [q]
  | .app q args =>
    match Term.all_consts_list args with
    | some l => some (q :: l)
    | none => none
  | .lett _ _ => none
  | .forallT _ _ => some []
  | .existsT _ _ => none
  | .matchT _ _ => none
  | .annot _ _ => none

/-- Collections of a list of argument terms, concatenated; `none` as soon
as any argument's collection panics. -/
def Term.all_consts_list : List Term → Option (List QualIdentifier)
  | [] => some []
  | t :: ts =>
    match Term.all_consts t with
    | some l =>
      match Term.all_consts_list ts with
      | some ls => some (l ++ ls)
      | none => none
    | none => none

end

/-- The Solver's state (`smtlib/src/solver.rs`): a Driver plus the
declaration map, modelled as an association list with first-match lookup. -/
structure SolverState where
  driver : DriverState
  decls : List (Identifier × SmtSort)
deriving Repr

/-- First-match lookup in the declaration map. -/
def declLookup : List (Identifier × SmtSort) → Identifier → Option SmtSort
  | [], _ => none
  | (j, s) :: ds, i => if j = i then some s else declLookup ds i

/-- Outcome of a Solver operation: normal return, an `Err` return, or a
Rust panic (`assert_eq!`, `todo!`, `panic!`), each carrying the state at
that point. -/
inductive OpOutcome (α : Type) where
  | ok (val : α) (st : SolverState) : OpOutcome α
  | err (e : Error) (st : SolverState) : OpOutcome α
  | panicked (msg : String) (st : SolverState) : OpOutcome α
deriving Repr

/-- The state carried by an outcome. -/
def OpOutcome.state : OpOutcome α → SolverState
  | .ok _ st => st
  | .err _ st => st
  | .panicked _ st => st

/-- The declaration pass of `Solver::assert` (`smtlib/src/solver.rs` lines
96-114): for each collected qualified identifier, a plain identifier is
skipped; a sorted one is looked up — an occupied entry must carry an equal
sort (`assert_eq!`, modelled as a `SortMismatch` panic on inequality), a
vacant entry is inserted and, for a simple identifier, `(declare-const sym
sort)` is executed with its response discarded (`?` propagates errors);
indexed identifiers hit `todo!`. -/
def processConsts (st : SolverState) : List QualIdentifier → OpOutcome Unit
  | [] => .ok () st
  | .identifier _ :: qs => processConsts st qs
  | .sorted i s :: qs =>
    match declLookup st.decls i with
    | some s' =>
      if s = s' then processConsts st qs else .panicked "SortMismatch" st
    | none =>
      let st1 : SolverState := { st with decls := st.decls ++ [(i, s)] }
      match i with
      | .simple sym =>
        match st1.driver.exec (.declareConst sym s) with
        | .error e => .err e st1
        | .ok (_, d') => processConsts { st1 with driver := d' } qs
      | .indexed _ _ => .panicked "todo: indexed declaration" st1

/-- `Solver::assert` (`smtlib/src/solver.rs` lines 94-121): collect the
term's qualified identifiers (`all_consts`), run the declaration pass, then
execute `(assert term)`; `success` yields `Ok(())`, an error response is
lifted to `Error::Smt(msg, cmd_text)`, any other response hits `todo!`. -/
def Solver.assert (st : SolverState) (b : Term) : OpOutcome Unit :=
  match b.all_consts with
  | none => .panicked "todo: all_consts" st
  | some qs =>
    match processConsts st qs with
    | .ok _ st1 =>
      let cmd := Command.assert b
      match st1.driver.exec cmd with
      | .error e => .err e st1
      | .ok (resp, d') =>
        let st2 : SolverState := { st1 with driver := d' }
        match resp with
        | .success => .ok () st2
        | .error e => .err (.smt e cmd.toText) st2
        | _ => .panicked "todo: assert response" st2
    | .err e st1 => .err e st1
    | .panicked m st1 => .panicked m st1

/-- The result of `check-sat`. -/
inductive SatResult where
  | sat : SatResult
  | unsat : SatResult
  | unknown : SatResult
deriving DecidableEq, Repr

/-- Modelled from the spec: the high-level `Model` wraps the get-model
response (`Model::new(model)`). -/
structure Model where
  response : ModelResponse
deriving DecidableEq, Repr

/-- The result of `check_sat_with_model`: `Sat` carries a model. -/
inductive SatResultWithModel where
  | sat (m : Model) : SatResultWithModel
  | unsat : SatResultWithModel
  | unknown : SatResultWithModel
deriving DecidableEq, Repr

/-- `Solver::set_logic` (`smtlib/src/solver.rs` lines 64-73): send
`(set-logic name)`; `success` yields `Ok(())` and every other parsed
response panics with the corresponding fixed message. -/
def Solver.set_logic (st : SolverState) (logic : String) : OpOutcome Unit :=
  match st.driver.exec (.setLogic logic) with
  | .error e => .err e st
  | .ok (resp, d') =>
    let st' : SolverState := { st with driver := d' }
    match resp with
    | .success => .ok () st'
    | .specificSuccessResponse _ => .panicked "Failed to set logic" st'
    | .unsupported => .panicked "Failed to set logic - Unsupported" st'
    | .error _ => .panicked "Failed to set logic - Err" st'

/-- `Solver::set_field_order` (`smtlib/src/solver.rs` lines 79-89): send
`(define-sort F () (_ FiniteField prime))` (the sort is built as a simple
identifier holding the whole text, as in the source); response handling as
in `set_logic` but with the field-order panic message on the success-shaped
mismatch. -/
def Solver.set_field_order (st : SolverState) (prime : Nat) : OpOutcome Unit :=
  let ffSort : SmtSort := .sort (.simple ("(_ FiniteField " ++ natRepr prime ++ ")"))
  match st.driver.exec (.defineSort "F" [] ffSort) with
  | .error e => .err e st
  | .ok (resp, d') =>
    let st' : SolverState := { st with driver := d' }
    match resp with
    | .success => .ok () st'
    | .specificSuccessResponse _ => .panicked "Failed to set field order" st'
    | .unsupported => .panicked "Failed to set logic - Unsupported" st'
    | .error _ => .panicked "Failed to set logic - Err" st'

/-- `Solver::check_sat` (`smtlib/src/solver.rs` lines 127-140): send
`(check-sat)`; a specific check-sat response is mirrored into `SatResult`;
an error response is lifted to `Error::Smt(msg, cmd_text)`; anything else
hits `todo!`. -/
def Solver.check_sat (st : SolverState) : OpOutcome SatResult :=
  let cmd := Command.checkSat
  match st.driver.exec cmd with
  | .error e => .err e st
  | .ok (resp, d') =>
    let st' : SolverState := { st with driver := d' }
    match resp with
    | .specificSuccessResponse (.checkSatResponse r) =>
      .ok (match r with
        | .sat => .sat
        | .unsat => .unsat
        | .unknown => .unknown) st'
    | .error msg => .err (.smt msg cmd.toText) st'
    | _ => .panicked "todo: check-sat response" st'

/-- `Solver::get_model` (`smtlib/src/solver.rs` lines 159-166): send
`(get-model)`; a specific get-model response is wrapped into a `Model`;
anything else hits `todo!`. -/
def Solver.get_model (st : SolverState) : OpOutcome Model :=
  match st.driver.exec .getModel with
  | .error e => .err e st
  | .ok (resp, d') =>
    let st' : SolverState := { st with driver := d' }
    match resp with
    | .specificSuccessResponse (.getModelResponse m) => .ok ⟨m⟩ st'
    | _ => .panicked "todo: get-model response" st'

/-- `Solver::check_sat_with_model` (`smtlib/src/solver.rs` lines 146-152):
run `check_sat`; on `Unsat`/`Unknown` return directly, on `Sat` run
`get_model` and wrap the model. -/
def Solver.check_sat_with_model (st : SolverState) : OpOutcome SatResultWithModel :=
  match Solver.check_sat st with
  | .err e st' => .err e st'
  | .panicked m st' => .panicked m st'
  | .ok r st' =>
    match r with
    | .unsat => .ok .unsat st'
    | .unknown => .ok .unknown st'
    | .sat =>
      match Solver.get_model st' with
      | .ok m st'' => .ok (.sat m) st''
      | .err e st'' => .err e st''
      | .panicked msg st'' => .panicked msg st''

/-- `qual_ident` (`smtlib/src/terms.rs` lines 19-25): a simple-symbol
qualified identifier, sorted exactly when a sort is supplied. -/
def qual_ident (s : String) (sort : Option SmtSort) : QualIdentifier :=
  match sort with
  | some srt => .sorted (.simple s) srt
  | none => .identifier (.simple s)

/-- `Sort::from_name` (`smtlib/src/terms.rs` lines 95-105): quote the name
unconditionally as `|name|` and build the `Const` as the pair of the quoted
name and the term wrapping the sort-annotated qualified identifier. The
implementing type's `Self::sort()` is the `srt` argument. -/
def from_name (srt : SmtSort) (name : String) : String × Term :=
  let q := "|" ++ name ++ "|"
  (q, .ident (qual_ident q (some srt)))

/-- `From<BigUint> for FieldElement` (`smtlib/src/theories/fieldelements.rs`
lines 62-66): the term is a plain identifier whose symbol is the literal
text `(as ffN F)`. -/
def FieldElement.ofBigUint (n : Nat) : Term :=
  .ident (qual_ident ("(as ff" ++ natRepr n ++ " F)") none)

/-- The first maximal run of decimal digits in a string — the model of the
`[0-9]+` regex search in `FieldElement::to_biguint`. -/
def firstDigitRun (s : String) : List Char :=
  (s.data.dropWhile (fun c => !c.isDigit)).takeWhile Char.isDigit

/-- Decimal value of a digit-character run. -/
def digitsToNat (cs : List Char) : Nat :=
  cs.foldl (fun a c => a * 10 + (c.toNat - 48)) 0

/-- `FieldElement::to_biguint` (`smtlib/src/theories/fieldelements.rs`
lines 72-83): display the wrapped term, find the first run of digits, and
parse it as a decimal number. -/
def FieldElement.to_biguint (t : Term) : Nat :=
  digitsToNat (firstDigitRun (detok t.render))

mutual

/-- Syntactic occurrence of a qualified identifier anywhere in a term,
including under `Let`, `Forall`, `Exists`, `Match` and `Annotation`. -/
def Term.occursQI (q : QualIdentifier) : Term → Bool
  | .const _ => false
  | .ident q' => q = q'
  | .app q' args => q = q' || Term.occursQIList q args
  | .lett bs body => Term.occursQIBindings q bs || Term.occursQI q body
  | .forallT _ body => Term.occursQI q body
  | .existsT _ body => Term.occursQI q body
  | .matchT scrut cs => Term.occursQI q scrut || Term.occursQICases q cs
  | .annot t _ => Term.occursQI q t

/-- Occurrence in any term of a list. -/
def Term.occursQIList (q : QualIdentifier) : List Term → Bool
  | [] => false
  | t :: ts => Term.occursQI q t || Term.occursQIList q ts

/-- Occurrence in any bound term of a binding list. -/
def Term.occursQIBindings (q : QualIdentifier) : List (String × Term) → Bool
  | [] => false
  | (_, t) :: bs => Term.occursQI q t || Term.occursQIBindings q bs

/-- Occurrence in any case body of a case list. -/
def Term.occursQICases (q : QualIdentifier) : List (Pattern × Term) → Bool
  | [] => false
  | (_, t) :: cs => Term.occursQI q t || Term.occursQICases q cs

end

mutual

/-- The fragment of terms built only from spec constants, identifiers and
applications — the part of the grammar `Term::all_consts` implements. -/
def Term.appOnly : Term → Bool
  | .const _ => true
  | .ident _ => true
  | .app _ args => Term.appOnlyList args
  | .lett _ _ => false
  | .forallT _ _ => false
  | .existsT _ _ => false
  | .matchT _ _ => false
  | .annot _ _ => false

/-- `appOnly` for every term of a list. -/
def Term.appOnlyList : List Term → Bool
  | [] => true
  | t :: ts => t.appOnly && Term.appOnlyList ts

end

/-- Whether an outcome is an `Err` return (as opposed to `Ok` or a panic). -/
def OpOutcome.isErr : OpOutcome α → Bool
  | .err _ _ => true
  | _ => false

/-- Whether an outcome is the `SortMismatch` panic (the `assert_eq!` on a
re-observed identifier's sort). -/
def OpOutcome.sortMismatch : OpOutcome α → Bool
  | .panicked "SortMismatch" _ => true
  | _ => false

/-- The solver state after one or more `exec` steps: the remaining script
and the commands appended to the log. -/
def SolverState.advance (st : SolverState) (rest : List String)
    (cmds : List Command) : SolverState :=
  { driver := { script := rest, sent := st.driver.sent ++ cmds,
                verbose := st.driver.verbose },
    decls := st.decls }

/-- The state after asserting `exTermC2` from `exSolverC2`: only `y` is
declared and two commands were sent. -/
def exAssertC2 : SolverState :=
  { driver := { script := [],
                sent := [.declareConst "y" (.sort (.simple "Int")),
                         .assert (.app (.identifier (.simple "and"))
                           [.ident (.sorted (.simple "y") (.sort (.simple "Int"))),
                            .forallT [("x", .sort (.simple "Int"))]
                              (.ident (.sorted (.simple "z") (.sort (.simple "Int"))))])],
                verbose := false },
    decls := [(.simple "y", .sort (.simple "Int"))] }

/-- The `Int` sort constant used by the concrete examples. -/
def intSort : SmtSort :=
  .sort (.simple "Int")

/-- Example token input: `(not x)`. -/
def exToksC1 : List Token :=
  [.lparen, .symbol "not", .symbol "x", .rparen]

/-- The parse of `(not x)`. -/
def exTermC1 : Term :=
  .app (.identifier (.simple "not")) [.ident (.identifier (.simple "x"))]

/-- Example term `(and (as y Int) (forall ((x Int)) (as z Int)))`: a sorted
qualified identifier occurs under the `forall` binder. -/
def exTermC2 : Term :=
  .app (.identifier (.simple "and"))
    [.ident (.sorted (.simple "y") intSort),
     .forallT [("x", intSort)] (.ident (.sorted (.simple "z") intSort))]

/-- Example solver state whose backend acknowledges two commands. -/
def exSolverC2 : SolverState :=
  { driver := { script := ["success", "success"], sent := [], verbose := false },
    decls := [] }

/-- Example solver state with one declared constant and a `sat` reply. -/
def exSolverC5 : SolverState :=
  { driver := { script := ["sat"], sent := [], verbose := false },
    decls := [(.simple "x", intSort)] }

/-- C8: for every name and every sort (the `Self::sort()` of a theory
wrapper), `from_name` quotes the name unconditionally, stores the quoted
form as the constant name, and wraps the sort-annotated qualified identifier
`(as |name| Sort)`, which renders accordingly. -/
theorem from_name_quotes_unconditionally (srt : SmtSort) (name : String) :
    (from_name srt name).1 = "|" ++ name ++ "|" ∧
    (from_name srt name).2 =
      Term.ident (.sorted (.simple ("|" ++ name ++ "|")) srt) ∧
    Term.render (from_name srt name).2 =
      [Token.lparen, Token.reserved "as", Token.symbol ("|" ++ name ++ "|")]
        ++ srt.render ++ [Token.rparen] := by
  refine ⟨rfl, rfl, ?_⟩
  simp [from_name, qual_ident, Term.render, QualIdentifier.render, Identifier.render]

/-- C4: `Driver::exec` tries the command-specific response parser for the
command's tag first and wraps a `Some(r)` result as
`SpecificSuccessResponse(r)`; otherwise the text is parsed under the
generic `GeneralResponse` grammar; backend transport failures and parse
failures (from either parser) are propagated as errors. -/
theorem driver_exec_dispatch (d : DriverState) (cmd : Command) (txt : String)
    (rest : List String) (hs : d.script = txt :: rest) :
    (∀ r, cmd.parse_response txt = .ok (some r) →
      d.exec cmd = .ok (.specificSuccessResponse r,
        { d with script := rest, sent := d.sent ++ [cmd] })) ∧
    (∀ g, cmd.parse_response txt = .ok none →
      GeneralResponse.parseText txt = .ok g →
      d.exec cmd = .ok (g, { d with script := rest, sent := d.sent ++ [cmd] })) ∧
    (∀ e, cmd.parse_response txt = .error e →
      d.exec cmd = .error (.parse e)) ∧
    (∀ e, cmd.parse_response txt = .ok none →
      GeneralResponse.parseText txt = .error e →
      d.exec cmd = .error (.parse e)) ∧
    (∀ d' : DriverState, d'.script = [] → d'.exec cmd = .error (.io .eof)) := by
  refine ⟨?_, ?_, ?_, ?_, ?_⟩ <;> intros <;> simp_all [DriverState.exec]

/-- Closed instance of `driver_exec_dispatch`: a `sat` reply to `check-sat`
is dispatched through the specific parser. -/
theorem driver_exec_dispatch_witness :
    (DriverState.mk ["sat"] [] false).exec .checkSat =
      .ok (.specificSuccessResponse (.checkSatResponse .sat),
        { script := [], sent := [.checkSat], verbose := false }) := by
  have h := (driver_exec_dispatch (DriverState.mk ["sat"] [] false) .checkSat
    "sat" [] rfl).1 (.checkSatResponse .sat) (by rfl)
  exact h

/-- C3 counterexample: a backend whose reply to the initial
`(set-option :print-success true)` is `(error "boom")` still yields a
driver — construction does not fail on a non-`success` response. -/
theorem driver_new_ignores_error_response :
    DriverState.new ["(error \"boom\")"] false =
      .ok { script := [], sent := [.setOption (.printSuccess true)], verbose := false } := by
  rfl

/-- C3 amended: `Driver::new` issues `(set-option :print-success true)` and
fails only when the transport fails or the response text fails to parse;
the parsed response value — `success`, `unsupported` or `(error ...)`
alike — is discarded and construction succeeds. -/
theorem driver_new_discards_response (txt : String) (rest : List String)
    (v : Bool) (g : GeneralResponse)
    (hp : GeneralResponse.parseText txt = .ok g) :
    DriverState.new (txt :: rest) v =
      .ok { script := rest, sent := [.setOption (.printSuccess true)], verbose := v } := by
  simp [DriverState.new, DriverState.exec, Command.parse_response, hp]

/-- Closed instance of `driver_new_discards_response` at an error reply. -/
theorem driver_new_discards_response_witness :
    GeneralResponse.parseText "(error \"x\")" = .ok (.error "x") ∧
    DriverState.new ["(error \"x\")"] false =
      .ok { script := [], sent := [.setOption (.printSuccess true)], verbose := false } :=
  ⟨rfl, driver_new_discards_response "(error \"x\")" [] false (.error "x") rfl⟩

/-- C9 counterexample: with the backend replying `(error "bad")`,
`set_logic` panics with the fixed message `Failed to set logic - Err`
instead of returning the error lifted to `SmtError`. -/
theorem set_logic_panics_on_error_response :
    Solver.set_logic
        { driver := { script := ["(error \"bad\")"], sent := [], verbose := false },
          decls := [] } "QF_FF" =
      .panicked "Failed to set logic - Err"
        { driver := { script := [], sent := [.setLogic "QF_FF"], verbose := false },
          decls := [] } ∧
    (Solver.set_logic
        { driver := { script := ["(error \"bad\")"], sent := [], verbose := false },
          decls := [] } "QF_FF").isErr = false := by
  exact ⟨rfl, rfl⟩

/-- C9 amended: `set_logic` returns `Ok(())` exactly when the solver
responds `success`; an `unsupported` response fails fatally (panic), and an
`(error msg)` response also fails fatally with the fixed panic message — it
is not lifted to `SmtError`. -/
theorem set_logic_response_behaviour (st : SolverState) (logic : String)
    (txt : String) (rest : List String) (hs : st.driver.script = txt :: rest) :
    (GeneralResponse.parseText txt = .ok .success →
      Solver.set_logic st logic = .ok () (st.advance rest [.setLogic logic])) ∧
    (GeneralResponse.parseText txt = .ok .unsupported →
      Solver.set_logic st logic =
        .panicked "Failed to set logic - Unsupported" (st.advance rest [.setLogic logic])) ∧
    (∀ msg, GeneralResponse.parseText txt = .ok (.error msg) →
      Solver.set_logic st logic =
        .panicked "Failed to set logic - Err" (st.advance rest [.setLogic logic]) ∧
      (Solver.set_logic st logic).isErr = false) := by
  refine ⟨?_, ?_, ?_⟩ <;> intros <;>
    simp_all [Solver.set_logic, DriverState.exec, Command.parse_response,
      OpOutcome.isErr, SolverState.advance]

/-- Closed instance of `set_logic_response_behaviour` at a `success` reply. -/
theorem set_logic_response_behaviour_witness :
    Solver.set_logic
        { driver := { script := ["success"], sent := [], verbose := false },
          decls := [] } "QF_LIA" =
      .ok ()
        { driver := { script := [], sent := [.setLogic "QF_LIA"], verbose := false },
          decls := [] } := by
  have h := (set_logic_response_behaviour
    { driver := { script := ["success"], sent := [], verbose := false }, decls := [] }
    "QF_LIA" "success" [] rfl).1 rfl
  exact h

/-- C6: `check_sat` emits `(check-sat)` (that is the rendered command text)
and returns `Sat`/`Unsat`/`Unknown` exactly mirroring the solver's
`CheckSatResponse`; an `(error msg)` reply is returned as
`SmtError(msg, "(check-sat)")` tagged with the offending command text. -/
theorem check_sat_mirrors_solver_response (st : SolverState) (txt : String)
    (rest : List String) (hs : st.driver.script = txt :: rest) :
    Command.toText .checkSat = "(check-sat)" ∧
    (∀ r, Command.parse_response .checkSat txt = .ok (some (.checkSatResponse r)) →
      Solver.check_sat st =
        .ok (match r with
          | .sat => SatResult.sat
          | .unsat => SatResult.unsat
          | .unknown => SatResult.unknown)
          (st.advance rest [.checkSat])) ∧
    (∀ msg, Command.parse_response .checkSat txt = .ok none →
      GeneralResponse.parseText txt = .ok (.error msg) →
      Solver.check_sat st =
        .err (.smt msg "(check-sat)") (st.advance rest [.checkSat])) := by
  have ht : detok (Command.render .checkSat) = "(check-sat)" := rfl
  refine ⟨rfl, ?_, ?_⟩ <;> intros <;>
    simp_all [Solver.check_sat, DriverState.exec, Command.toText,
      SolverState.advance, ht]

/-- Closed instances of `check_sat_mirrors_solver_response`: an `unsat`
reply is mirrored, and an error reply is lifted to `SmtError` tagged with
`(check-sat)`. -/
theorem check_sat_mirrors_solver_response_witness :
    Solver.check_sat
        { driver := { script := ["unsat"], sent := [], verbose := false }, decls := [] } =
      .ok .unsat
        { driver := { script := [], sent := [.checkSat], verbose := false }, decls := [] } ∧
    Solver.check_sat
        { driver := { script := ["(error \"oops\")"], sent := [], verbose := false },
          decls := [] } =
      .err (.smt "oops" "(check-sat)")
        { driver := { script := [], sent := [.checkSat], verbose := false }, decls := [] } := by
  constructor
  · have h := (check_sat_mirrors_solver_response
      { driver := { script := ["unsat"], sent := [], verbose := false }, decls := [] }
      "unsat" [] rfl).2.1 .unsat (by rfl)
    exact h
  · have h := (check_sat_mirrors_solver_response
      { driver := { script := ["(error \"oops\")"], sent := [], verbose := false },
        decls := [] }
      "(error \"oops\")" [] rfl).2.2 "oops" (by rfl) (by rfl)
    exact h

/-- C7: `check_sat_with_model` performs `check_sat` and issues `(get-model)`
exactly when the result is `Sat` (returning `Sat` with the model); on
`Unsat`/`Unknown` it returns directly and only `(check-sat)` was sent. -/
theorem check_sat_with_model_gets_model_exactly_on_sat (st : SolverState)
    (txt : String) (rest : List String) (hs : st.driver.script = txt :: rest) :
    (Command.parse_response .checkSat txt = .ok (some (.checkSatResponse .unsat)) →
      Solver.check_sat_with_model st = .ok .unsat (st.advance rest [.checkSat])) ∧
    (Command.parse_response .checkSat txt = .ok (some (.checkSatResponse .unknown)) →
      Solver.check_sat_with_model st = .ok .unknown (st.advance rest [.checkSat])) ∧
    (∀ txt2 rest2 m, rest = txt2 :: rest2 →
      Command.parse_response .checkSat txt = .ok (some (.checkSatResponse .sat)) →
      Command.parse_response .getModel txt2 = .ok (some (.getModelResponse m)) →
      Solver.check_sat_with_model st =
        .ok (.sat ⟨m⟩) (st.advance rest2 [.checkSat, .getModel])) := by
  refine ⟨?_, ?_, ?_⟩ <;> intros <;>
    simp_all [Solver.check_sat_with_model, Solver.check_sat, Solver.get_model,
      DriverState.exec, SolverState.advance]

/-- Closed instance of `check_sat_with_model_gets_model_exactly_on_sat`: a
`sat` reply followed by a model reply yields `Sat` with the model and both
commands were sent. -/
theorem check_sat_with_model_gets_model_witness :
    Solver.check_sat_with_model
        { driver := { script := ["sat", "(model )"], sent := [], verbose := false },
          decls := [] } =
      .ok (.sat ⟨⟨"(model )"⟩⟩)
        { driver := { script := [], sent := [.checkSat, .getModel], verbose := false },
          decls := [] } := by
  have h := (check_sat_with_model_gets_model_exactly_on_sat
    { driver := { script := ["sat", "(model )"], sent := [], verbose := false },
      decls := [] }
    "sat" ["(model )"] rfl).2.2 "(model )" [] ⟨"(model )"⟩ rfl (by rfl) (by rfl)
  exact h

theorem declLookup_append_of_some {ds : List (Identifier × SmtSort)}
    {i : Identifier} {s : SmtSort} (h : declLookup ds i = some s)
    (es : List (Identifier × SmtSort)) : declLookup (ds ++ es) i = some s := by
  induction ds with
  | nil => simp [declLookup] at h
  | cons p ds ih =>
    obtain ⟨j, s'⟩ := p
    by_cases hj : j = i
    · simpa [declLookup, hj] using h
    · simp only [List.cons_append, declLookup, if_neg hj] at h ⊢
      exact ih h

theorem declLookup_append_singleton {ds : List (Identifier × SmtSort)}
    {i : Identifier} (h : declLookup ds i = none) (s : SmtSort) :
    declLookup (ds ++ [(i, s)]) i = some s := by
  induction ds with
  | nil => simp [declLookup]
  | cons p ds ih =>
    obtain ⟨j, s'⟩ := p
    by_cases hj : j = i
    · simp [declLookup, hj] at h
    · simp only [declLookup, if_neg hj] at h
      simpa [List.cons_append, declLookup, if_neg hj] using ih h

theorem declLookup_append_singleton_inv {ds : List (Identifier × SmtSort)}
    {i i' : Identifier} {s x : SmtSort}
    (hnone : declLookup ds i' = none)
    (hsome : declLookup (ds ++ [(i, s)]) i' = some x) : i = i' ∧ x = s := by
  induction ds with
  | nil =>
    simp only [List.nil_append, declLookup] at hsome
    by_cases hj : i = i'
    · simp [if_pos hj] at hsome
      exact ⟨hj, hsome.symm⟩
    · simp [if_neg hj, declLookup] at hsome
  | cons p ds ih =>
    obtain ⟨j, s'⟩ := p
    by_cases hj : j = i'
    · simp [declLookup, hj] at hnone
    · simp only [declLookup, if_neg hj] at hnone
      simp only [List.cons_append, declLookup, if_neg hj] at hsome
      exact ih hnone hsome

theorem exec_ok_fields {d : DriverState} {cmd : Command} {resp : GeneralResponse}
    {d' : DriverState} (h : d.exec cmd = .ok (resp, d')) :
    d'.sent = d.sent ++ [cmd] ∧ d'.verbose = d.verbose ∧
    ∃ txt rest, d.script = txt :: rest ∧ d'.script = rest := by
  cases hs : d.script with
  | nil => simp [DriverState.exec, hs] at h
  | cons txt rest =>
    simp only [DriverState.exec, hs] at h
    cases hp : cmd.parse_response txt with
    | error e => rw [hp] at h; simp at h
    | ok o =>
      rw [hp] at h
      cases o with
      | some r =>
        simp only [Except.ok.injEq, Prod.mk.injEq] at h
        obtain ⟨-, h2⟩ := h
        subst h2
        exact ⟨rfl, rfl, txt, rest, rfl, rfl⟩
      | none =>
        cases hg : GeneralResponse.parseText txt with
        | error e => rw [hg] at h; simp at h
        | ok g =>
          rw [hg] at h
          simp only [Except.ok.injEq, Prod.mk.injEq] at h
          obtain ⟨-, h2⟩ := h
          subst h2
          exact ⟨rfl, rfl, txt, rest, rfl, rfl⟩

theorem processConsts_decls_extends (qs : List QualIdentifier) :
    ∀ st : SolverState, ∃ es, (processConsts st qs).state.decls = st.decls ++ es := by
  induction qs with
  | nil => intro st; exact ⟨[], by simp [processConsts, OpOutcome.state]⟩
  | cons q qs ih =>
    intro st
    cases q with
    | identifier i => simpa [processConsts] using ih st
    | sorted i s =>
      cases hl : declLookup st.decls i with
      | some s' =>
        by_cases hss : s = s'
        · have := ih st
          simpa [processConsts, hl, hss] using this
        · exact ⟨[], by simp [processConsts, hl, hss, OpOutcome.state]⟩
      | none =>
        cases i with
        | simple sym =>
          cases hx : ({ st with decls := st.decls ++ [(Identifier.simple sym, s)] }
              : SolverState).driver.exec (.declareConst sym s) with
          | error e =>
            refine ⟨[(.simple sym, s)], ?_⟩
            simp [processConsts, hl, hx, OpOutcome.state]
          | ok pr =>
            obtain ⟨resp, d'⟩ := pr
            obtain ⟨es2, hes2⟩ := ih { driver := d', decls := st.decls ++ [(.simple sym, s)] }
            refine ⟨(.simple sym, s) :: es2, ?_⟩
            simp only [processConsts, hl, hx]
            simpa using hes2
        | indexed b is =>
          refine ⟨[(.indexed b is, s)], ?_⟩
          simp [processConsts, hl, OpOutcome.state]

/-- C5: within one Solver session the declaration map is monotonic — once
`declared[id] = s`, after any further operation (`set_logic`,
`set_field_order`, `check_sat`, `get_model`, `check_sat_with_model`,
`assert`) the binding still holds; in particular an `assert` either
preserves it or (in the claim's wording) fails with `SortMismatch`, and no
entry is ever removed or rebound. -/
theorem decl_map_monotonic (st : SolverState) (id : Identifier) (s : SmtSort)
    (h : declLookup st.decls id = some s) :
    (∀ logic, declLookup (Solver.set_logic st logic).state.decls id = some s) ∧
    (∀ p, declLookup (Solver.set_field_order st p).state.decls id = some s) ∧
    declLookup (Solver.check_sat st).state.decls id = some s ∧
    declLookup (Solver.get_model st).state.decls id = some s ∧
    declLookup (Solver.check_sat_with_model st).state.decls id = some s ∧
    (∀ t, declLookup (Solver.assert st t).state.decls id = some s ∨
      (Solver.assert st t).sortMismatch = true) := by
  have hcs : ∀ st0 : SolverState, (Solver.check_sat st0).state.decls = st0.decls := by
    intro st0
    unfold Solver.check_sat
    cases hx : st0.driver.exec .checkSat with
    | error e => simp [hx, OpOutcome.state]
    | ok pr =>
      obtain ⟨resp, d'⟩ := pr
      rcases resp with _ | r | _ | m
      · simp [hx, OpOutcome.state]
      · rcases r with r | m <;> simp [hx, OpOutcome.state]
      · simp [hx, OpOutcome.state]
      · simp [hx, OpOutcome.state]
  have hgm : ∀ st0 : SolverState, (Solver.get_model st0).state.decls = st0.decls := by
    intro st0
    unfold Solver.get_model
    cases hx : st0.driver.exec .getModel with
    | error e => simp [hx, OpOutcome.state]
    | ok pr =>
      obtain ⟨resp, d'⟩ := pr
      rcases resp with _ | r | _ | m
      · simp [hx, OpOutcome.state]
      · rcases r with r | m <;> simp [hx, OpOutcome.state]
      · simp [hx, OpOutcome.state]
      · simp [hx, OpOutcome.state]
  refine ⟨?_, ?_, ?_, ?_, ?_, ?_⟩
  · intro logic
    unfold Solver.set_logic
    cases hx : st.driver.exec (.setLogic logic) with
    | error e => simpa [hx, OpOutcome.state] using h
    | ok pr =>
      obtain ⟨resp, d'⟩ := pr
      rcases resp with _ | r | _ | m <;> simpa [hx, OpOutcome.state] using h
  · intro p
    unfold Solver.set_field_order
    cases hx : st.driver.exec (.defineSort "F" []
        (.sort (.simple ("(_ FiniteField " ++ natRepr p ++ ")")))) with
    | error e => simpa [hx, OpOutcome.state] using h
    | ok pr =>
      obtain ⟨resp, d'⟩ := pr
      rcases resp with _ | r | _ | m <;> simpa [hx, OpOutcome.state] using h
  · rw [hcs st]; exact h
  · rw [hgm st]; exact h
  · unfold Solver.check_sat_with_model
    cases hx : Solver.check_sat st with
    | err e st' =>
      have : st'.decls = st.decls := by
        have := hcs st; rw [hx] at this; exact this
      simpa [hx, OpOutcome.state, this] using h
    | panicked m st' =>
      have : st'.decls = st.decls := by
        have := hcs st; rw [hx] at this; exact this
      simpa [hx, OpOutcome.state, this] using h
    | ok r st' =>
      have hst' : st'.decls = st.decls := by
        have := hcs st; rw [hx] at this; exact this
      have h' : declLookup st'.decls id = some s := by rw [hst']; exact h
      rcases r with _ | _ | _
      · cases hy : Solver.get_model st' with
        | ok m st'' =>
          have : st''.decls = st'.decls := by
            have := hgm st'; rw [hy] at this; exact this
          simpa [hx, hy, OpOutcome.state, this] using h'
        | err e st'' =>
          have : st''.decls = st'.decls := by
            have := hgm st'; rw [hy] at this; exact this
          simpa [hx, hy, OpOutcome.state, this] using h'
        | panicked m st'' =>
          have : st''.decls = st'.decls := by
            have := hgm st'; rw [hy] at this; exact this
          simpa [hx, hy, OpOutcome.state, this] using h'
      · simpa [hx, OpOutcome.state] using h'
      · simpa [hx, OpOutcome.state] using h'
  · intro t
    left
    cases hac : t.all_consts with
    | none => simpa [Solver.assert, hac, OpOutcome.state] using h
    | some qs =>
      obtain ⟨es, hes⟩ := processConsts_decls_extends qs st
      have hl := declLookup_append_of_some h es
      cases hp : processConsts st qs with
      | ok v st1 =>
        have h1 : st1.decls = st.decls ++ es := by
          rw [hp] at hes; exact hes
        have h2 : declLookup st1.decls id = some s := by rw [h1]; exact hl
        cases hx : st1.driver.exec (.assert t) with
        | error e => simpa [Solver.assert, hac, hp, hx, OpOutcome.state] using h2
        | ok pr =>
          obtain ⟨resp, d'⟩ := pr
          rcases resp with _ | r | _ | m <;>
            simpa [Solver.assert, hac, hp, hx, OpOutcome.state] using h2
      | err e st1 =>
        have h1 : st1.decls = st.decls ++ es := by
          rw [hp] at hes; exact hes
        have h2 : declLookup st1.decls id = some s := by rw [h1]; exact hl
        simpa [Solver.assert, hac, hp, OpOutcome.state] using h2
      | panicked m st1 =>
        have h1 : st1.decls = st.decls ++ es := by
          rw [hp] at hes; exact hes
        have h2 : declLookup st1.decls id = some s := by rw [h1]; exact hl
        simpa [Solver.assert, hac, hp, OpOutcome.state] using h2

/-- Closed instance of `decl_map_monotonic`: a declared constant survives a
`check_sat`. -/
theorem decl_map_monotonic_witness :
    declLookup exSolverC5.decls (.simple "x") = some intSort ∧
    declLookup (Solver.check_sat exSolverC5).state.decls (.simple "x") = some intSort :=
  ⟨rfl, (decl_map_monotonic exSolverC5 (.simple "x") intSort rfl).2.2.1⟩

theorem term_need_pos : ∀ t : Term, 1 ≤ t.need := by
  intro t
  cases t <;> simp only [Term.need] <;> omega

theorem need_lt_of_mem {ts : List Term} {t : Term} (h : t ∈ ts) :
    Term.need t < Term.needList ts := by
  induction ts with
  | nil => simp at h
  | cons a as ih =>
    rcases List.mem_cons.mp h with e | m
    · subst e; simp only [Term.needList]; omega
    · have := ih m; simp only [Term.needList]; omega

theorem appOnlyList_mem {ts : List Term} (h : Term.appOnlyList ts = true)
    {t : Term} (ht : t ∈ ts) : Term.appOnly t = true := by
  induction ts with
  | nil => simp at ht
  | cons a as ih =>
    simp only [Term.appOnlyList, Bool.and_eq_true] at h
    rcases List.mem_cons.mp ht with e | m
    · subst e; exact h.1
    · exact ih h.2 m

theorem all_consts_list_spec (args : List Term)
    (helem : ∀ t ∈ args, ∃ l, Term.all_consts t = some l ∧
      (∀ q, q ∈ l ↔ Term.occursQI q t = true)) :
    ∃ l, Term.all_consts_list args = some l ∧
      (∀ q, q ∈ l ↔ Term.occursQIList q args = true) := by
  induction args with
  | nil => exact ⟨[], rfl, by simp [Term.occursQIList]⟩
  | cons a as ih =>
    obtain ⟨la, hla, hma⟩ := helem a (by simp)
    obtain ⟨ls, hls, hms⟩ := ih (fun t ht => helem t (by simp [ht]))
    refine ⟨la ++ ls, ?_, ?_⟩
    · simp [Term.all_consts_list, hla, hls]
    · intro q
      simp [List.mem_append, hma q, hms q, Term.occursQIList]

theorem all_consts_app_fragment_spec (t : Term) (ha : Term.appOnly t = true) :
    ∃ l, Term.all_consts t = some l ∧ ∀ q, q ∈ l ↔ Term.occursQI q t = true := by
  have key : ∀ N (t : Term), Term.need t ≤ N → Term.appOnly t = true →
      ∃ l, Term.all_consts t = some l ∧
        ∀ q, q ∈ l ↔ Term.occursQI q t = true := by
    intro N
    induction N with
    | zero =>
      intro t hN _
      have := term_need_pos t
      omega
    | succ N ihN =>
      intro t hN hA
      cases t with
      | const c => exact ⟨[], rfl, by simp [Term.occursQI]⟩
      | ident q' =>
        refine ⟨[q'], rfl, ?_⟩
        intro q
        simp [Term.occursQI]
      | app q' args =>
        have hargs : Term.appOnlyList args = true := by
          simpa [Term.appOnly] using hA
        have helem : ∀ t' ∈ args, ∃ l, Term.all_consts t' = some l ∧
            (∀ q, q ∈ l ↔ Term.occursQI q t' = true) := by
          intro t' ht'
          refine ihN t' ?_ (appOnlyList_mem hargs ht')
          have h1 := need_lt_of_mem ht'
          have h2 : Term.need (.app q' args) = 1 + q'.need + Term.needList args := rfl
          omega
        obtain ⟨l, hl, hm⟩ := all_consts_list_spec args helem
        refine ⟨q' :: l, ?_, ?_⟩
        · simp [Term.all_consts, hl]
        · intro q
          simp [Term.occursQI, List.mem_cons, hm q]
      | lett bs body => simp [Term.appOnly] at hA
      | forallT vs body => simp [Term.appOnly] at hA
      | existsT vs body => simp [Term.appOnly] at hA
      | matchT scrut cs => simp [Term.appOnly] at hA
      | annot t' attrs => simp [Term.appOnly] at hA
  exact key (Term.need t) t le_rfl ha

theorem processConsts_declares :
    ∀ (qs : List QualIdentifier) (st st' : SolverState),
      processConsts st qs = .ok () st' →
      ∃ ds : List Command,
        st'.driver.sent = st.driver.sent ++ ds ∧
        ∀ i s, (QualIdentifier.sorted i s) ∈ qs →
          declLookup st'.decls i = some s ∧
          (∀ sym, i = .simple sym → declLookup st.decls i = none →
            Command.declareConst sym s ∈ ds) := by
  intro qs
  induction qs with
  | nil =>
    intro st st' h
    simp only [processConsts, OpOutcome.ok.injEq] at h
    obtain ⟨-, h2⟩ := h
    subst h2
    exact ⟨[], by simp, by simp⟩
  | cons q qs ih =>
    intro st st' h
    cases q with
    | identifier i =>
      simp only [processConsts] at h
      obtain ⟨ds, hds, hmem⟩ := ih st st' h
      refine ⟨ds, hds, ?_⟩
      intro i' s' hm
      rcases List.mem_cons.mp hm with e | m
      · simp at e
      · exact hmem i' s' m
    | sorted i s =>
      simp only [processConsts] at h
      cases hl : declLookup st.decls i with
      | some s0 =>
        simp only [hl] at h
        by_cases hss : s = s0
        · rw [if_pos hss] at h
          obtain ⟨ds, hds, hmem⟩ := ih st st' h
          refine ⟨ds, hds, ?_⟩
          intro i' s' hm
          rcases List.mem_cons.mp hm with e | m
          · have e1 : i' = i ∧ s' = s := by
              cases e; exact ⟨rfl, rfl⟩
            obtain ⟨e1, e2⟩ := e1
            subst e1; subst e2
            constructor
            · obtain ⟨es, hes⟩ := processConsts_decls_extends qs st
              simp only [h, OpOutcome.state] at hes
              rw [hes]
              refine declLookup_append_of_some ?_ es
              rw [hl, hss]
            · intro sym hsym hnone
              rw [hnone] at hl
              cases hl
          · exact hmem i' s' m
        · rw [if_neg hss] at h
          cases h
      | none =>
        cases i with
        | simple sym =>
          simp only [hl] at h
          cases hx : st.driver.exec (.declareConst sym s) with
          | error e =>
            simp only [hx] at h
            exact OpOutcome.noConfusion h
          | ok pr =>
            obtain ⟨resp, d'⟩ := pr
            simp only [hx] at h
            obtain ⟨hsent, -, -⟩ := exec_ok_fields hx
            obtain ⟨ds2, hds2, hmem2⟩ :=
              ih { driver := d', decls := st.decls ++ [(.simple sym, s)] } st' h
            refine ⟨.declareConst sym s :: ds2, ?_, ?_⟩
            · rw [hds2]
              simp [hsent]
            · intro i' s' hm
              have hlook2 : declLookup (st.decls ++ [(Identifier.simple sym, s)])
                  (Identifier.simple sym) = some s :=
                declLookup_append_singleton hl s
              rcases List.mem_cons.mp hm with e | m
              · have e1 : i' = .simple sym ∧ s' = s := by
                  cases e; exact ⟨rfl, rfl⟩
                obtain ⟨e1, e2⟩ := e1
                subst e1
                constructor
                · rw [e2]
                  obtain ⟨es, hes⟩ := processConsts_decls_extends qs
                    { driver := d', decls := st.decls ++ [(.simple sym, s)] }
                  simp only [h, OpOutcome.state] at hes
                  rw [hes]
                  exact declLookup_append_of_some hlook2 es
                · intro sym' hsym' hnone
                  rw [e2]
                  have hsy : sym' = sym := by cases hsym'; rfl
                  subst hsy
                  exact List.mem_cons_self _ _
              · have hfst := (hmem2 i' s' m).1
                constructor
                · exact hfst
                · intro sym' hsym' hnone
                  cases hl2 : declLookup (st.decls ++ [(Identifier.simple sym, s)]) i' with
                  | none =>
                    exact List.mem_cons_of_mem _ ((hmem2 i' s' m).2 sym' hsym' hl2)
                  | some x =>
                    obtain ⟨ei, ex⟩ := declLookup_append_singleton_inv hnone hl2
                    have hpres : declLookup st'.decls i' = some s := by
                      obtain ⟨es, hes⟩ := processConsts_decls_extends qs
                        { driver := d', decls := st.decls ++ [(.simple sym, s)] }
                      simp only [h, OpOutcome.state] at hes
                      rw [hes]
                      refine declLookup_append_of_some ?_ es
                      rw [hl2, ex]
                    have hs' : s' = s := by
                      rw [hfst] at hpres
                      exact Option.some.inj hpres
                    have hsym2 : sym' = sym := by
                      rw [hsym'] at ei
                      exact (Identifier.simple.inj ei).symm
                    rw [hs', hsym2]
                    exact List.mem_cons_self _ _
        | indexed b is =>
          simp only [hl] at h
          exact OpOutcome.noConfusion h

/-- C2 counterexample: in `(and (as y Int) (forall ((x Int)) (as z Int)))`
the sorted identifier `z` occurs under the `Forall`, yet `all_consts` skips
`Forall` bodies, so `assert` emits no `(declare-const z Int)` and records
nothing for `z` — contradicting the claim that the traversal reaches under
`Forall` (and `Let`, `Exists`, `Match`, `Annotation`, which panic). -/
theorem assert_skips_binder_consts_counterexample :
    Term.occursQI (.sorted (.simple "z") intSort) exTermC2 = true ∧
    Term.all_consts exTermC2 =
      some [.identifier (.simple "and"), .sorted (.simple "y") intSort] ∧
    Solver.assert exSolverC2 exTermC2 = .ok () exAssertC2 ∧
    declLookup exAssertC2.decls (.simple "z") = none ∧
    Term.all_consts (.lett [("w", .const (.numeral "1"))]
      (.ident (.sorted (.simple "z") intSort))) = none := by
  exact ⟨rfl, rfl, rfl, rfl, rfl⟩

/-- C2 amended: `Solver::assert` collects sorted qualified identifiers via
`all_consts`, whose traversal covers only the constant/identifier/
application fragment — `Forall` subterms contribute nothing and `Let`,
`Exists`, `Match`, `Annotation` are unimplemented (panic). For each
collected sorted identifier the declaration map ends up binding it, and
each previously-unseen simple one has `(declare-const sym sort)` emitted,
all before the final `(assert term)`. -/
theorem assert_declares_collected_consts :
    (∀ t, Term.appOnly t = true →
      ∃ l, Term.all_consts t = some l ∧
        (∀ q, q ∈ l ↔ Term.occursQI q t = true)) ∧
    (∀ vs body, Term.all_consts (.forallT vs body) = some []) ∧
    (∀ bs body, Term.all_consts (.lett bs body) = none) ∧
    (∀ vs body, Term.all_consts (.existsT vs body) = none) ∧
    (∀ scrut cs, Term.all_consts (.matchT scrut cs) = none) ∧
    (∀ t attrs, Term.all_consts (.annot t attrs) = none) ∧
    (∀ st t qs st', Term.all_consts t = some qs →
      Solver.assert st t = .ok () st' →
      ∃ ds, st'.driver.sent = st.driver.sent ++ ds ++ [.assert t] ∧
        ∀ i s, (QualIdentifier.sorted i s) ∈ qs →
          declLookup st'.decls i = some s ∧
          (∀ sym, i = .simple sym → declLookup st.decls i = none →
            Command.declareConst sym s ∈ ds)) := by
  refine ⟨fun t ha => all_consts_app_fragment_spec t ha,
    fun vs body => rfl, fun bs body => rfl, fun vs body => rfl,
    fun scrut cs => rfl, fun t attrs => rfl, ?_⟩
  intro st t qs st' hac hA
  simp only [Solver.assert, hac] at hA
  cases hp : processConsts st qs with
  | ok v st1 =>
    cases v
    simp only [hp] at hA
    cases hx : st1.driver.exec (.assert t) with
    | error e =>
      simp only [hx] at hA
      exact OpOutcome.noConfusion hA
    | ok pr =>
      obtain ⟨resp, d'⟩ := pr
      simp only [hx] at hA
      rcases resp with _ | r | _ | m
      · simp only [OpOutcome.ok.injEq] at hA
        obtain ⟨-, h2⟩ := hA
        subst h2
        obtain ⟨ds, hds, hmem⟩ := processConsts_declares qs st st1 hp
        obtain ⟨hsent, -, -⟩ := exec_ok_fields hx
        refine ⟨ds, ?_, ?_⟩
        · simp only
          rw [hsent, hds]
          try simp
        · intro i s hm
          exact hmem i s hm
      · exact OpOutcome.noConfusion hA
      · exact OpOutcome.noConfusion hA
      · exact OpOutcome.noConfusion hA
  | err e st1 =>
    simp only [hp] at hA
    exact OpOutcome.noConfusion hA
  | panicked m st1 =>
    simp only [hp] at hA
    exact OpOutcome.noConfusion hA

/-- Closed instance of `assert_declares_collected_consts`: asserting
`exTermC2` declares and records the unseen `y`. -/
theorem assert_declares_collected_consts_witness :
    ∃ ds, exAssertC2.driver.sent = exSolverC2.driver.sent ++ ds ++ [.assert exTermC2] ∧
      ∀ i s, (QualIdentifier.sorted i s) ∈
          [QualIdentifier.identifier (.simple "and"),
           QualIdentifier.sorted (.simple "y") intSort] →
        declLookup exAssertC2.decls i = some s ∧
        (∀ sym, i = .simple sym → declLookup exSolverC2.decls i = none →
          Command.declareConst sym s ∈ ds) :=
  assert_declares_collected_consts.2.2.2.2.2.2 exSolverC2 exTermC2 _ exAssertC2 rfl rfl

theorem digitChar48_isDigit {d : Nat} (h : d < 10) :
    (digitChar48 d).isDigit = true := by
  interval_cases d <;> decide

theorem digitChar48_toNat {d : Nat} (h : d < 10) :
    (digitChar48 d).toNat = 48 + d := by
  interval_cases d <;> decide

theorem natRepr_data_ne_nil (n : Nat) : (natRepr n).data ≠ [] := by
  unfold natRepr
  by_cases h : n = 0
  · simp [h]
  · have hd : Nat.digits 10 n ≠ [] := Nat.digits_ne_nil_iff_ne_zero.mpr h
    simp only [h, if_neg h]
    intro hcon
    apply hd
    have : (Nat.digits 10 n).reverse.map digitChar48 = [] := hcon
    simpa using this

theorem natRepr_data_digits (n : Nat) :
    ∀ c ∈ (natRepr n).data, c.isDigit = true := by
  unfold natRepr
  by_cases h : n = 0
  · simp [h]
  · simp only [if_neg h]
    intro c hc
    have : c ∈ (Nat.digits 10 n).reverse.map digitChar48 := hc
    simp only [List.mem_map, List.mem_reverse] at this
    obtain ⟨d, hd, rfl⟩ := this
    exact digitChar48_isDigit (Nat.digits_lt_base (by norm_num) hd)

theorem digitsToNat_aux (ds : List Nat) (hd : ∀ d ∈ ds, d < 10) (a : Nat) :
    List.foldl (fun acc c => acc * 10 + (c.toNat - 48)) a
        ((ds.reverse).map digitChar48) =
      a * 10 ^ ds.length + Nat.ofDigits 10 ds := by
  induction ds generalizing a with
  | nil => simp [Nat.ofDigits]
  | cons d ds ih =>
    have hd' : ∀ x ∈ ds, x < 10 := fun x hx => hd x (List.mem_cons_of_mem _ hx)
    have hdd : d < 10 := hd d (List.mem_cons_self _ _)
    simp only [List.reverse_cons, List.map_append, List.foldl_append,
      List.map_cons, List.map_nil, List.foldl_cons, List.foldl_nil]
    rw [ih hd' a, digitChar48_toNat hdd, Nat.ofDigits_cons]
    have h48 : 48 + d - 48 = d := by omega
    rw [h48]
    simp only [List.length_cons, pow_succ]
    ring

theorem digitsToNat_natRepr (n : Nat) : digitsToNat ((natRepr n).data) = n := by
  by_cases h : n = 0
  · subst h; decide
  · have hd : ∀ d ∈ Nat.digits 10 n, d < 10 :=
      fun d hdm => Nat.digits_lt_base (by norm_num) hdm
    have key := digitsToNat_aux (Nat.digits 10 n) hd 0
    unfold natRepr digitsToNat
    simp only [if_neg h]
    rw [key]
    simpa using Nat.ofDigits_digits 10 n

theorem dropWhile_append_all {p : Char → Bool} {l1 l2 : List Char}
    (h : ∀ c ∈ l1, p c = true) :
    (l1 ++ l2).dropWhile p = l2.dropWhile p := by
  induction l1 with
  | nil => simp
  | cons a l ih =>
    have ha := h a (List.mem_cons_self _ _)
    simp [List.dropWhile_cons, ha,
      ih (fun c hc => h c (List.mem_cons_of_mem _ hc))]

theorem takeWhile_append_all {p : Char → Bool} {l1 l2 : List Char}
    (h : ∀ c ∈ l1, p c = true) :
    (l1 ++ l2).takeWhile p = l1 ++ l2.takeWhile p := by
  induction l1 with
  | nil => simp
  | cons a l ih =>
    have ha := h a (List.mem_cons_self _ _)
    simp [List.takeWhile_cons, ha,
      ih (fun c hc => h c (List.mem_cons_of_mem _ hc))]

/-- C10: for every natural number `n` (a `BigUint`), converting into a
`FieldElement` produces the literal term `(as ffN F)` (a simple identifier
holding that text), and `to_biguint` — first digit run of the displayed
term, parsed in decimal — recovers `n` exactly. -/
theorem fieldelement_biguint_roundtrip (n : Nat) :
    FieldElement.ofBigUint n =
      Term.ident (.identifier (.simple ("(as ff" ++ natRepr n ++ " F)"))) ∧
    detok (Term.render (FieldElement.ofBigUint n)) = "(as ff" ++ natRepr n ++ " F)" ∧
    FieldElement.to_biguint (FieldElement.ofBigUint n) = n := by
  have hrender : detok (Term.render (FieldElement.ofBigUint n)) =
      "(as ff" ++ natRepr n ++ " F)" := by
    show detokAux [Token.symbol ("(as ff" ++ natRepr n ++ " F)")] false = _
    show ("(as ff" ++ natRepr n ++ " F)" : String) ++ "" = _
    apply String.ext
    simp [String.data_append]
  refine ⟨rfl, hrender, ?_⟩
  unfold FieldElement.to_biguint
  rw [hrender]
  unfold firstDigitRun
  obtain ⟨c, cs, hcs⟩ : ∃ c cs, (natRepr n).data = c :: cs := by
    cases hx : (natRepr n).data with
    | nil => exact absurd hx (natRepr_data_ne_nil n)
    | cons c cs => exact ⟨c, cs, rfl⟩
  have hdigs := natRepr_data_digits n
  have hcdig : c.isDigit = true := hdigs c (by rw [hcs]; exact List.mem_cons_self _ _)
  have hdata : ("(as ff" ++ natRepr n ++ " F)").data =
      "(as ff".data ++ (natRepr n).data ++ " F)".data := by
    simp [String.data_append]
  rw [hdata, hcs, List.append_assoc]
  rw [dropWhile_append_all (by decide)]
  have hstep : ((c :: cs) ++ " F)".data).dropWhile (fun ch => !ch.isDigit) =
      c :: (cs ++ " F)".data) := by
    simp [List.cons_append, List.dropWhile_cons, hcdig]
  rw [hstep, ← List.cons_append]
  have hall : ∀ ch ∈ c :: cs, ch.isDigit = true := by
    intro ch hch
    exact hdigs ch (by rw [hcs]; exact hch)
  rw [takeWhile_append_all hall]
  have hnil : (" F)".data).takeWhile Char.isDigit = [] := by decide
  rw [hnil, List.append_nil, ← hcs]
  exact digitsToNat_natRepr n

theorem needIdxList_pos (is : List Index) : 1 ≤ needIdxList is := by
  cases is <;> simp [needIdxList]

theorem identifier_need_pos (id : Identifier) : 1 ≤ id.need := by
  cases id <;> simp [Identifier.need]

theorem smtSort_need_pos (s : SmtSort) : 1 ≤ s.need := by
  cases s <;> simp only [SmtSort.need] <;> omega

theorem smtSort_needList_pos (ss : List SmtSort) : 1 ≤ SmtSort.needList ss := by
  cases ss <;> simp only [SmtSort.needList] <;> omega

theorem Qualidentifier_need_pos (qi : QualIdentifier) : 1 ≤ qi.need := by
  cases qi <;> simp only [QualIdentifier.need] <;> omega

theorem sexpr_need_pos (e : SExpr) : 1 ≤ e.need := by
  cases e <;> simp [SExpr.need]

theorem sexpr_needList_pos (es : List SExpr) : 1 ≤ SExpr.needList es := by
  cases es <;> simp only [SExpr.needList] <;> omega

theorem attributeValue_need_pos (v : AttributeValue) : 1 ≤ v.need := by
  cases v <;> simp [AttributeValue.need]

theorem attribute_need_pos (a : Attribute) : 1 ≤ a.need := by
  cases a <;> simp [Attribute.need]

theorem Attribute.needAll_pos (as : List Attribute) : 1 ≤ Attribute.needAll as := by
  cases as <;> simp only [Attribute.needAll] <;> omega

theorem pattern_need_pos (p : Pattern) : 1 ≤ p.need := by
  obtain ⟨c, as⟩ := p; simp only [Pattern.need]; omega

theorem needVars_pos (vs : List (String × SmtSort)) : 1 ≤ needVars vs := by
  cases vs with
  | nil => simp [needVars]
  | cons v vs => obtain ⟨a, b⟩ := v; simp only [needVars]; omega

theorem term_needList_pos (ts : List Term) : 1 ≤ Term.needList ts := by
  cases ts <;> simp only [Term.needList] <;> omega

theorem Term.needBindings_pos (bs : List (String × Term)) :
    1 ≤ Term.needBindings bs := by
  cases bs with
  | nil => simp [Term.needBindings]
  | cons b bs => obtain ⟨a, t⟩ := b; simp only [Term.needBindings]; omega

theorem Term.needCases_pos (cs : List (Pattern × Term)) : 1 ≤ Term.needCases cs := by
  cases cs with
  | nil => simp [Term.needCases]
  | cons c cs => obtain ⟨p, t⟩ := c; simp only [Term.needCases]; omega

theorem parseTermRest_cons (f : Nat) (tok : Token) (htok : tok ≠ .rparen)
    (tl : List Token) :
    parseTermRest (f + 1) (tok :: tl) =
      match parseTerm f (tok :: tl) with
      | some (t, r) =>
        match parseTermRest f r with
        | some (ts, r') => some (t :: ts, r')
        | none => none
      | none => none := by
  cases tok <;> first | rfl | (exact absurd rfl htok)

theorem parseSortRest_cons (f : Nat) (tok : Token) (htok : tok ≠ .rparen)
    (tl : List Token) :
    parseSortRest (f + 1) (tok :: tl) =
      match parseSort f (tok :: tl) with
      | some (s, r) =>
        match parseSortRest f r with
        | some (ss, r') => some (s :: ss, r')
        | none => none
      | none => none := by
  cases tok <;> first | rfl | (exact absurd rfl htok)

theorem parseSExprRest_cons (f : Nat) (tok : Token) (htok : tok ≠ .rparen)
    (tl : List Token) :
    parseSExprRest (f + 1) (tok :: tl) =
      match parseSExpr f (tok :: tl) with
      | some (e, r) =>
        match parseSExprRest f r with
        | some (es, r') => some (e :: es, r')
        | none => none
      | none => none := by
  cases tok <;> first | rfl | (exact absurd rfl htok)

theorem parseAttributeRest_cons (f : Nat) (tok : Token) (htok : tok ≠ .rparen)
    (tl : List Token) :
    parseAttributeRest (f + 1) (tok :: tl) =
      match parseAttribute f (tok :: tl) with
      | some (a, r) =>
        match parseAttributeRest f r with
        | some (as, r') => some (a :: as, r')
        | none => none
      | none => none := by
  cases tok <;> first | rfl | (exact absurd rfl htok)

theorem parseBindingRest_cons (f : Nat) (tok : Token) (htok : tok ≠ .rparen)
    (tl : List Token) :
    parseBindingRest (f + 1) (tok :: tl) =
      match parseBinding f (tok :: tl) with
      | some (b, r) =>
        match parseBindingRest f r with
        | some (bs, r') => some (b :: bs, r')
        | none => none
      | none => none := by
  cases tok <;> first | rfl | (exact absurd rfl htok)

theorem parseVarRest_cons (f : Nat) (tok : Token) (htok : tok ≠ .rparen)
    (tl : List Token) :
    parseVarRest (f + 1) (tok :: tl) =
      match parseSortedVar f (tok :: tl) with
      | some (v, r) =>
        match parseVarRest f r with
        | some (vs, r') => some (v :: vs, r')
        | none => none
      | none => none := by
  cases tok <;> first | rfl | (exact absurd rfl htok)

theorem parseCaseRest_cons (f : Nat) (tok : Token) (htok : tok ≠ .rparen)
    (tl : List Token) :
    parseCaseRest (f + 1) (tok :: tl) =
      match parseCase f (tok :: tl) with
      | some (c, r) =>
        match parseCaseRest f r with
        | some (cs, r') => some (c :: cs, r')
        | none => none
      | none => none := by
  cases tok <;> first | rfl | (exact absurd rfl htok)

theorem idxRest_rt (is : List Index) :
    ∀ f rest, needIdxList is ≤ f + 1 →
      parseIndexRest (f + 1) (is.map Index.renderTok ++ Token.rparen :: rest) =
        some (is, rest) := by
  induction is with
  | nil => intro f rest h; simp [parseIndexRest]
  | cons i is ih =>
    intro f rest h
    have hp := needIdxList_pos is
    obtain ⟨f', rfl⟩ : ∃ f', f = f' + 1 := by
      cases f with
      | zero => simp only [needIdxList] at h; omega
      | succ f' => exact ⟨f', rfl⟩
    have hle : needIdxList is ≤ f' + 1 := by
      simp only [needIdxList] at h; omega
    cases i with
    | num s => simp [Index.renderTok, parseIndexRest, ih _ rest hle]
    | sym s => simp [Index.renderTok, parseIndexRest, ih _ rest hle]

theorem idxList1_rt (i : Index) (is : List Index) :
    ∀ f rest, needIdxList (i :: is) ≤ f + 1 →
      parseIndexList1 (f + 1) ((i :: is).map Index.renderTok ++ Token.rparen :: rest) =
        some (i :: is, rest) := by
  intro f rest h
  have hp := needIdxList_pos is
  obtain ⟨f', rfl⟩ : ∃ f', f = f' + 1 := by
    cases f with
    | zero => simp only [needIdxList] at h; omega
    | succ f' => exact ⟨f', rfl⟩
  have hle : needIdxList is ≤ f' + 1 := by
    simp only [needIdxList] at h; omega
  cases i with
  | num s => simp [Index.renderTok, parseIndexList1, idxRest_rt is _ rest hle]
  | sym s => simp [Index.renderTok, parseIndexList1, idxRest_rt is _ rest hle]

theorem identifier_rt (id : Identifier) :
    ∀ f rest, id.wf = true → id.need ≤ f →
      parseIdentifier f (id.render ++ rest) = some (id, rest) := by
  intro f rest hwf hf
  cases id with
  | simple s =>
    obtain ⟨f', rfl⟩ : ∃ f', f = f' + 1 := by
      cases f with
      | zero => simp [Identifier.need] at hf
      | succ f' => exact ⟨f', rfl⟩
    simp [Identifier.render, parseIdentifier]
  | indexed s idx =>
    obtain ⟨f', rfl⟩ : ∃ f', f = f' + 1 := by
      cases f with
      | zero => simp [Identifier.need] at hf
      | succ f' => exact ⟨f', rfl⟩
    obtain ⟨i, is, rfl⟩ : ∃ i is, idx = i :: is := by
      cases idx with
      | nil => simp [Identifier.wf] at hwf
      | cons i is => exact ⟨i, is, rfl⟩
    have hle : needIdxList (i :: is) ≤ f' + 1 := by
      simp only [Identifier.need] at hf; omega
    obtain ⟨f'', rfl⟩ : ∃ f'', f' = f'' + 1 := by
      have hp := needIdxList_pos is
      cases f' with
      | zero => simp only [needIdxList] at hle; omega
      | succ f'' => exact ⟨f'', rfl⟩
    have hle2 : needIdxList (i :: is) ≤ f'' + 1 := by
      simp only [Identifier.need] at hf; omega
    simp only [Identifier.render, List.cons_append, List.append_assoc,
      List.singleton_append, List.nil_append]
    simp only [parseIdentifier]
    rw [idxList1_rt i is f'' rest hle2]

theorem sort_render_head (s : SmtSort) :
    ∃ tok tl, s.render = tok :: tl ∧ tok ≠ Token.rparen := by
  cases s with
  | sort id =>
    cases id with
    | simple a => exact ⟨.symbol a, [], rfl, by simp⟩
    | indexed a idx =>
      exact ⟨.lparen,
        .reserved "_" :: .symbol a :: (idx.map Index.renderTok ++ [.rparen]),
        by simp [SmtSort.render, Identifier.render], by simp⟩
  | parametric id args =>
    exact ⟨.lparen, _, rfl, by simp⟩

theorem sortRest_rt_param (ss : List SmtSort)
    (helem : ∀ s ∈ ss, ∀ f rest, s.wf = true → s.need ≤ f →
      parseSort f (s.render ++ rest) = some (s, rest)) :
    ∀ f rest, SmtSort.wfList ss = true → SmtSort.needList ss ≤ f + 1 →
      parseSortRest (f + 1) (SmtSort.renderList ss ++ Token.rparen :: rest) =
        some (ss, rest) := by
  induction ss with
  | nil =>
    intro f rest _ _
    simp [SmtSort.renderList, parseSortRest]
  | cons s ss ih =>
    intro f rest hwf hn
    have hwf1 : s.wf = true ∧ SmtSort.wfList ss = true := by
      simpa [SmtSort.wfList, Bool.and_eq_true] using hwf
    have hps := smtSort_need_pos s
    have hpl := smtSort_needList_pos ss
    simp only [SmtSort.needList] at hn
    obtain ⟨f', rfl⟩ : ∃ f', f = f' + 1 := by
      cases f with
      | zero => omega
      | succ f' => exact ⟨f', rfl⟩
    obtain ⟨tok, tl, he, hne⟩ := sort_render_head s
    simp only [SmtSort.renderList, List.append_assoc]
    have hshape : s.render ++ (SmtSort.renderList ss ++ Token.rparen :: rest) =
        tok :: (tl ++ (SmtSort.renderList ss ++ Token.rparen :: rest)) := by
      rw [he]; rfl
    rw [hshape, parseSortRest_cons _ tok hne, ← hshape]
    have h1 := helem s (by simp) (f' + 1)
      (SmtSort.renderList ss ++ Token.rparen :: rest) hwf1.1 (by omega)
    have h2 := ih (fun x hx => helem x (by simp [hx])) f' rest hwf1.2 (by omega)
    simp [h1, h2]

theorem sortList1_rt_param (ss : List SmtSort)
    (helem : ∀ s ∈ ss, ∀ f rest, s.wf = true → s.need ≤ f →
      parseSort f (s.render ++ rest) = some (s, rest))
    (hne : ss ≠ []) :
    ∀ f rest, SmtSort.wfList ss = true → SmtSort.needList ss ≤ f + 1 →
      parseSortList1 (f + 1) (SmtSort.renderList ss ++ Token.rparen :: rest) =
        some (ss, rest) := by
  obtain ⟨s, ss, rfl⟩ : ∃ s tail, ss = s :: tail := by
    cases ss with
    | nil => exact absurd rfl hne
    | cons s tail => exact ⟨s, tail, rfl⟩
  intro f rest hwf hn
  have hwf1 : s.wf = true ∧ SmtSort.wfList ss = true := by
    simpa [SmtSort.wfList, Bool.and_eq_true] using hwf
  have hps := smtSort_need_pos s
  have hpl := smtSort_needList_pos ss
  simp only [SmtSort.needList] at hn
  obtain ⟨f', rfl⟩ : ∃ f', f = f' + 1 := by
    cases f with
    | zero => omega
    | succ f' => exact ⟨f', rfl⟩
  simp only [SmtSort.renderList, List.append_assoc, parseSortList1]
  have h1 := helem s (by simp) (f' + 1)
    (SmtSort.renderList ss ++ Token.rparen :: rest) hwf1.1 (by omega)
  have h2 := sortRest_rt_param ss (fun x hx => helem x (by simp [hx])) f' rest
    hwf1.2 (by omega)
  simp [h1, h2]

theorem sort_need_lt_of_mem {ss : List SmtSort} {s : SmtSort} (h : s ∈ ss) :
    s.need < SmtSort.needList ss := by
  induction ss with
  | nil => simp at h
  | cons a as ih =>
    rcases List.mem_cons.mp h with e | m
    · subst e; simp only [SmtSort.needList]; omega
    · have := ih m; simp only [SmtSort.needList]; omega

theorem sort_rt (s : SmtSort) :
    ∀ f rest, s.wf = true → s.need ≤ f →
      parseSort f (s.render ++ rest) = some (s, rest) := by
  have key : ∀ N (s : SmtSort), s.need ≤ N → ∀ f rest, s.wf = true → s.need ≤ f →
      parseSort f (s.render ++ rest) = some (s, rest) := by
    intro N
    induction N with
    | zero =>
      intro s hN
      have := smtSort_need_pos s
      omega
    | succ N ihN =>
      intro s hN f rest hwf hf
      cases s with
      | sort id =>
        have hpid := identifier_need_pos id
        simp only [SmtSort.need] at hf
        obtain ⟨f', rfl⟩ : ∃ f', f = f' + 1 := by
          cases f with
          | zero => omega
          | succ f' => exact ⟨f', rfl⟩
        cases id with
        | simple a => simp [SmtSort.render, Identifier.render, parseSort]
        | indexed a idx =>
          have hwfid : (Identifier.indexed a idx).wf = true := by
            simpa [SmtSort.wf] using hwf
          have h1 := identifier_rt (Identifier.indexed a idx) f' rest hwfid (by omega)
          simp only [SmtSort.render, Identifier.render, List.cons_append,
            List.append_assoc, List.singleton_append, List.nil_append] at h1 ⊢
          simp [parseSort, h1]
      | parametric id args =>
        have hwfand : (id.wf && !args.isEmpty && SmtSort.wfList args) = true := hwf
        simp only [Bool.and_eq_true] at hwfand
        have hwfid : id.wf = true := hwfand.1.1
        have hargsne : args ≠ [] := by
          have := hwfand.1.2
          simpa using this
        have hwfargs : SmtSort.wfList args = true := hwfand.2
        have hpid := identifier_need_pos id
        have hpargs := smtSort_needList_pos args
        simp only [SmtSort.need] at hf hN
        obtain ⟨f', rfl⟩ : ∃ f', f = f' + 1 := by
          cases f with
          | zero => omega
          | succ f' => exact ⟨f', rfl⟩
        obtain ⟨f'', rfl⟩ : ∃ f'', f' = f'' + 1 := by
          cases f' with
          | zero => omega
          | succ f'' => exact ⟨f'', rfl⟩
        have helem : ∀ x ∈ args, ∀ g rest', x.wf = true → x.need ≤ g →
            parseSort g (x.render ++ rest') = some (x, rest') := by
          intro x hx g rest' hwx hgx
          have hlt := sort_need_lt_of_mem hx
          exact ihN x (by omega) g rest' hwx hgx
        have h2 := sortList1_rt_param args helem hargsne f'' rest hwfargs (by omega)
        cases id with
        | simple a =>
          have h1 := identifier_rt (Identifier.simple a) (f'' + 1)
            (SmtSort.renderList args ++ Token.rparen :: rest) (by simp [Identifier.wf])
            (by simp [Identifier.need])
          simp only [Identifier.render, List.singleton_append] at h1
          simp only [SmtSort.render, Identifier.render, List.cons_append,
            List.append_assoc, List.singleton_append, List.nil_append]
          simp [parseSort, h1, h2]
        | indexed a idx =>
          have h1 := identifier_rt (Identifier.indexed a idx) (f'' + 1)
            (SmtSort.renderList args ++ Token.rparen :: rest) (by
              simpa [SmtSort.wf] using hwfid) (by omega)
          simp only [Identifier.render, List.cons_append, List.append_assoc,
            List.singleton_append, List.nil_append] at h1
          simp only [SmtSort.render, Identifier.render, List.cons_append,
            List.append_assoc, List.singleton_append, List.nil_append]
          simp [parseSort, h1, h2]
  intro f rest hwf hf
  exact key s.need s le_rfl f rest hwf hf

theorem qual_rt (qi : QualIdentifier) :
    ∀ f rest, qi.wf = true → qi.need ≤ f →
      parseQualIdentifier f (qi.render ++ rest) = some (qi, rest) := by
  intro f rest hwf hf
  cases qi with
  | identifier id =>
    have hpid := identifier_need_pos id
    simp only [QualIdentifier.need] at hf
    obtain ⟨f', rfl⟩ : ∃ f', f = f' + 1 := by
      cases f with
      | zero => omega
      | succ f' => exact ⟨f', rfl⟩
    cases id with
    | simple a =>
      simp [QualIdentifier.render, Identifier.render, parseQualIdentifier]
    | indexed a idx =>
      have h1 := identifier_rt (Identifier.indexed a idx) f' rest
        (by simpa [QualIdentifier.wf] using hwf) (by omega)
      simp only [QualIdentifier.render, Identifier.render, List.cons_append,
        List.append_assoc, List.singleton_append, List.nil_append] at h1 ⊢
      simp [parseQualIdentifier, h1]
  | sorted id srt =>
    have hw2 : id.wf = true ∧ srt.wf = true := by
      simpa [QualIdentifier.wf, Bool.and_eq_true] using hwf
    have hpid := identifier_need_pos id
    have hps := smtSort_need_pos srt
    simp only [QualIdentifier.need] at hf
    obtain ⟨f', rfl⟩ : ∃ f', f = f' + 1 := by
      cases f with
      | zero => omega
      | succ f' => exact ⟨f', rfl⟩
    have h1 := identifier_rt id f' (srt.render ++ Token.rparen :: rest)
      hw2.1 (by omega)
    have h2 := sort_rt srt f' (Token.rparen :: rest) hw2.2 (by omega)
    simp only [QualIdentifier.render, List.cons_append, List.append_assoc,
      List.singleton_append, List.nil_append]
    simp [parseQualIdentifier, h1, h2]

theorem sexpr_render_head (e : SExpr) :
    ∃ tok tl, e.render = tok :: tl ∧ tok ≠ Token.rparen := by
  cases e with
  | atom a =>
    refine ⟨a.renderTok, [], rfl, ?_⟩
    cases a with
    | const c => cases c <;> simp [SExprAtom.renderTok, SpecConstant.renderTok]
    | sym s => simp [SExprAtom.renderTok]
    | keyword s => simp [SExprAtom.renderTok]
    | reserved s => simp [SExprAtom.renderTok]
  | list es => exact ⟨.lparen, _, rfl, by simp⟩

theorem sexpr_need_lt_of_mem {es : List SExpr} {e : SExpr} (h : e ∈ es) :
    e.need < SExpr.needList es := by
  induction es with
  | nil => simp at h
  | cons a as ih =>
    rcases List.mem_cons.mp h with hm | m
    · subst hm; simp only [SExpr.needList]; omega
    · have := ih m; simp only [SExpr.needList]; omega

theorem sexprRest_rt_param (es : List SExpr)
    (helem : ∀ e ∈ es, ∀ f rest, e.need ≤ f →
      parseSExpr f (e.render ++ rest) = some (e, rest)) :
    ∀ f rest, SExpr.needList es ≤ f + 1 →
      parseSExprRest (f + 1) (SExpr.renderList es ++ Token.rparen :: rest) =
        some (es, rest) := by
  induction es with
  | nil =>
    intro f rest _
    simp [SExpr.renderList, parseSExprRest]
  | cons e es ih =>
    intro f rest hn
    have hpe := sexpr_need_pos e
    have hpl := sexpr_needList_pos es
    simp only [SExpr.needList] at hn
    obtain ⟨f', rfl⟩ : ∃ f', f = f' + 1 := by
      cases f with
      | zero => omega
      | succ f' => exact ⟨f', rfl⟩
    obtain ⟨tok, tl, he, hne⟩ := sexpr_render_head e
    simp only [SExpr.renderList, List.append_assoc]
    have hshape : e.render ++ (SExpr.renderList es ++ Token.rparen :: rest) =
        tok :: (tl ++ (SExpr.renderList es ++ Token.rparen :: rest)) := by
      rw [he]; rfl
    rw [hshape, parseSExprRest_cons _ tok hne, ← hshape]
    have h1 := helem e (by simp) (f' + 1)
      (SExpr.renderList es ++ Token.rparen :: rest) (by omega)
    have h2 := ih (fun x hx => helem x (by simp [hx])) f' rest (by omega)
    simp [h1, h2]

theorem sexpr_rt (e : SExpr) :
    ∀ f rest, e.need ≤ f → parseSExpr f (e.render ++ rest) = some (e, rest) := by
  have key : ∀ N (e : SExpr), e.need ≤ N → ∀ f rest, e.need ≤ f →
      parseSExpr f (e.render ++ rest) = some (e, rest) := by
    intro N
    induction N with
    | zero =>
      intro e hN
      have := sexpr_need_pos e
      omega
    | succ N ihN =>
      intro e hN f rest hf
      obtain ⟨f', rfl⟩ : ∃ f', f = f' + 1 := by
        have := sexpr_need_pos e
        cases f with
        | zero => omega
        | succ f' => exact ⟨f', rfl⟩
      cases e with
      | atom a =>
        cases a with
        | const c =>
          cases c <;>
            simp [SExpr.render, SExprAtom.renderTok, SpecConstant.renderTok, parseSExpr]
        | sym s => simp [SExpr.render, SExprAtom.renderTok, parseSExpr]
        | keyword s => simp [SExpr.render, SExprAtom.renderTok, parseSExpr]
        | reserved s => simp [SExpr.render, SExprAtom.renderTok, parseSExpr]
      | list es =>
        have hpl := sexpr_needList_pos es
        simp only [SExpr.need] at hN hf
        obtain ⟨f'', rfl⟩ : ∃ f'', f' = f'' + 1 := by
          cases f' with
          | zero => omega
          | succ f'' => exact ⟨f'', rfl⟩
        have helem : ∀ x ∈ es, ∀ g rest', x.need ≤ g →
            parseSExpr g (x.render ++ rest') = some (x, rest') := by
          intro x hx g rest' hgx
          have := sexpr_need_lt_of_mem hx
          exact ihN x (by omega) g rest' hgx
        have h2 := sexprRest_rt_param es helem f'' rest (by omega)
        simp only [SExpr.render, List.cons_append, List.append_assoc,
          List.singleton_append, List.nil_append]
        simp [parseSExpr, h2]
  intro f rest hf
  exact key e.need e le_rfl f rest hf

theorem attrValue_rt (v : AttributeValue) :
    ∀ f rest, v.need ≤ f →
      parseAttributeValue f (v.render ++ rest) = some (v, rest) := by
  intro f rest hf
  obtain ⟨f', rfl⟩ : ∃ f', f = f' + 1 := by
    have := attributeValue_need_pos v
    cases f with
    | zero => omega
    | succ f' => exact ⟨f', rfl⟩
  cases v with
  | const c =>
    cases c <;> simp [AttributeValue.render, SpecConstant.renderTok, parseAttributeValue]
  | sym s => simp [AttributeValue.render, parseAttributeValue]
  | expr es =>
    have hpl := sexpr_needList_pos es
    simp only [AttributeValue.need] at hf
    obtain ⟨f'', rfl⟩ : ∃ f'', f' = f'' + 1 := by
      cases f' with
      | zero => omega
      | succ f'' => exact ⟨f'', rfl⟩
    have h2 := sexprRest_rt_param es
      (fun x _ g rest' hgx => sexpr_rt x g rest' hgx) f'' rest (by omega)
    simp only [AttributeValue.render, List.cons_append, List.append_assoc,
      List.singleton_append, List.nil_append]
    simp [parseAttributeValue, h2]

theorem attr_withValue_rt (k : String) (v : AttributeValue) :
    ∀ f rest, v.need ≤ f →
      parseAttribute (f + 1) ((Token.keyword k :: v.render) ++ rest) =
        some (.withValue k v, rest) := by
  intro f rest hf
  have h1 := attrValue_rt v f rest hf
  cases v with
  | const c =>
    cases c <;> simp_all [AttributeValue.render, SpecConstant.renderTok, parseAttribute]
  | sym s => simp_all [AttributeValue.render, parseAttribute]
  | expr es => simp_all [AttributeValue.render, parseAttribute]

theorem attr_render_head (a : Attribute) :
    ∃ k tl, a.render = Token.keyword k :: tl := by
  cases a with
  | flag k => exact ⟨k, [], rfl⟩
  | withValue k v => exact ⟨k, v.render, rfl⟩

theorem attrRest_rt (as : List Attribute) :
    ∀ f rest, Attribute.needAll as ≤ f + 1 →
      parseAttributeRest (f + 1) (Attribute.renderAll as ++ Token.rparen :: rest) =
        some (as, rest) := by
  induction as with
  | nil =>
    intro f rest _
    simp [Attribute.renderAll, parseAttributeRest]
  | cons a as ih =>
    intro f rest hn
    have hpa := attribute_need_pos a
    have hpl := Attribute.needAll_pos as
    simp only [Attribute.needAll] at hn
    obtain ⟨f', rfl⟩ : ∃ f', f = f' + 1 := by
      cases f with
      | zero => omega
      | succ f' => exact ⟨f', rfl⟩
    have h2 := ih f' rest (by omega)
    cases a with
    | flag k =>
      have hstep : parseAttribute (f' + 1)
          (Token.keyword k :: (Attribute.renderAll as ++ Token.rparen :: rest)) =
          some (.flag k, Attribute.renderAll as ++ Token.rparen :: rest) := by
        cases as with
        | nil => simp [Attribute.renderAll, parseAttribute]
        | cons a' as' =>
          obtain ⟨k', tl, he⟩ := attr_render_head a'
          simp only [Attribute.renderAll, List.append_assoc, he, List.cons_append]
          simp [parseAttribute]
      simp only [Attribute.renderAll, Attribute.render, List.cons_append,
        List.append_assoc, List.singleton_append, List.nil_append]
      rw [parseAttributeRest_cons _ _ (by simp)]
      simp [hstep, h2]
    | withValue k v =>
      have hf1 : v.need ≤ f' := by
        simp only [Attribute.need] at hn
        omega
      have hstep := attr_withValue_rt k v f'
        (Attribute.renderAll as ++ Token.rparen :: rest) hf1
      simp only [Attribute.renderAll, Attribute.render, List.cons_append,
        List.append_assoc, List.singleton_append, List.nil_append] at hstep ⊢
      rw [parseAttributeRest_cons _ _ (by simp)]
      simp [hstep, h2]

theorem attrList1_rt (a : Attribute) (as : List Attribute) :
    ∀ f rest, Attribute.needAll (a :: as) ≤ f + 1 →
      parseAttributeList1 (f + 1)
          (Attribute.renderAll (a :: as) ++ Token.rparen :: rest) =
        some (a :: as, rest) := by
  intro f rest hn
  have hpa := attribute_need_pos a
  have hpl := Attribute.needAll_pos as
  simp only [Attribute.needAll] at hn
  obtain ⟨f', rfl⟩ : ∃ f', f = f' + 1 := by
    cases f with
    | zero => omega
    | succ f' => exact ⟨f', rfl⟩
  have h2 := attrRest_rt as f' rest (by omega)
  cases a with
  | flag k =>
    have hstep : parseAttribute (f' + 1)
        (Token.keyword k :: (Attribute.renderAll as ++ Token.rparen :: rest)) =
        some (.flag k, Attribute.renderAll as ++ Token.rparen :: rest) := by
      cases as with
      | nil => simp [Attribute.renderAll, parseAttribute]
      | cons a' as' =>
        obtain ⟨k', tl, he⟩ := attr_render_head a'
        simp only [Attribute.renderAll, List.append_assoc, he, List.cons_append]
        simp [parseAttribute]
    simp only [Attribute.renderAll, Attribute.render, List.cons_append,
      List.append_assoc, List.singleton_append, List.nil_append]
    simp only [parseAttributeList1]
    simp [hstep, h2]
  | withValue k v =>
    have hf1 : v.need ≤ f' := by
      simp only [Attribute.need] at hn
      omega
    have hstep := attr_withValue_rt k v f'
      (Attribute.renderAll as ++ Token.rparen :: rest) hf1
    simp only [Attribute.renderAll, Attribute.render, List.cons_append,
      List.append_assoc, List.singleton_append, List.nil_append] at hstep ⊢
    simp only [parseAttributeList1]
    simp [hstep, h2]

theorem symbolRest_rt (ss : List String) :
    ∀ f rest, ss.length + 1 ≤ f + 1 →
      parseSymbolRest (f + 1) (ss.map Token.symbol ++ Token.rparen :: rest) =
        some (ss, rest) := by
  induction ss with
  | nil => intro f rest _; simp [parseSymbolRest]
  | cons s ss ih =>
    intro f rest hn
    simp only [List.length_cons] at hn
    obtain ⟨f', rfl⟩ : ∃ f', f = f' + 1 := by
      cases f with
      | zero => omega
      | succ f' => exact ⟨f', rfl⟩
    simp [parseSymbolRest, ih f' rest (by omega)]

theorem pattern_rt (p : Pattern) :
    ∀ f rest, p.need ≤ f → parsePattern f (p.render ++ rest) = some (p, rest) := by
  intro f rest hf
  obtain ⟨c, as⟩ := p
  simp only [Pattern.need] at hf
  obtain ⟨f', rfl⟩ : ∃ f', f = f' + 1 := by
    cases f with
    | zero => omega
    | succ f' => exact ⟨f', rfl⟩
  cases as with
  | nil => simp [Pattern.render, parsePattern]
  | cons a as =>
    simp only [List.length_cons] at hf
    obtain ⟨f'', rfl⟩ : ∃ f'', f' = f'' + 1 := by
      cases f' with
      | zero => omega
      | succ f'' => exact ⟨f'', rfl⟩
    have h1 := symbolRest_rt as f'' rest (by omega)
    simp only [Pattern.render, List.cons_append, List.append_assoc,
      List.singleton_append, List.nil_append]
    simp [parsePattern, h1]

theorem sortedVar_rt (name : String) (srt : SmtSort) :
    ∀ f rest, srt.wf = true → srt.need ≤ f →
      parseSortedVar (f + 1) (renderVar (name, srt) ++ rest) =
        some ((name, srt), rest) := by
  intro f rest hwf hf
  have h1 := sort_rt srt f (Token.rparen :: rest) hwf hf
  simp only [renderVar, List.cons_append, List.append_assoc,
    List.singleton_append, List.nil_append]
  simp [parseSortedVar, h1]

theorem varRest_rt (vs : List (String × SmtSort)) :
    ∀ f rest, wfVars vs = true → needVars vs ≤ f + 1 →
      parseVarRest (f + 1) (renderVars vs ++ Token.rparen :: rest) =
        some (vs, rest) := by
  induction vs with
  | nil => intro f rest _ _; simp [renderVars, parseVarRest]
  | cons v vs ih =>
    intro f rest hwf hn
    obtain ⟨name, srt⟩ := v
    have hw2 : srt.wf = true ∧ wfVars vs = true := by
      simpa [wfVars, Bool.and_eq_true] using hwf
    have hps := smtSort_need_pos srt
    have hpl := needVars_pos vs
    simp only [needVars] at hn
    obtain ⟨f', rfl⟩ : ∃ f', f = f' + 1 := by
      cases f with
      | zero => omega
      | succ f' => exact ⟨f', rfl⟩
    have h1 := sortedVar_rt name srt f'
      (renderVars vs ++ Token.rparen :: rest) hw2.1 (by omega)
    have h2 := ih f' rest hw2.2 (by omega)
    simp only [renderVars, renderVar, List.cons_append, List.append_assoc,
      List.singleton_append, List.nil_append] at h1 ⊢
    simp [parseVarRest, h1, h2]

theorem varList1_rt (v : String × SmtSort) (vs : List (String × SmtSort)) :
    ∀ f rest, wfVars (v :: vs) = true → needVars (v :: vs) ≤ f + 1 →
      parseVarList1 (f + 1) (renderVars (v :: vs) ++ Token.rparen :: rest) =
        some (v :: vs, rest) := by
  intro f rest hwf hn
  obtain ⟨name, srt⟩ := v
  have hw2 : srt.wf = true ∧ wfVars vs = true := by
    simpa [wfVars, Bool.and_eq_true] using hwf
  have hps := smtSort_need_pos srt
  have hpl := needVars_pos vs
  simp only [needVars] at hn
  obtain ⟨f', rfl⟩ : ∃ f', f = f' + 1 := by
    cases f with
    | zero => omega
    | succ f' => exact ⟨f', rfl⟩
  have h1 := sortedVar_rt name srt f'
    (renderVars vs ++ Token.rparen :: rest) hw2.1 (by omega)
  have h2 := varRest_rt vs f' rest hw2.2 (by omega)
  simp only [renderVars, renderVar, List.cons_append, List.append_assoc,
    List.singleton_append, List.nil_append] at h1 ⊢
  simp [parseVarList1, h1, h2]

theorem term_render_head (t : Term) :
    ∃ tok tl, t.render = tok :: tl ∧ tok ≠ Token.rparen := by
  cases t with
  | const c =>
    refine ⟨c.renderTok, [], rfl, ?_⟩
    cases c <;> simp [SpecConstant.renderTok]
  | ident qi =>
    cases qi with
    | identifier id =>
      cases id with
      | simple a => exact ⟨.symbol a, [], rfl, by simp⟩
      | indexed a idx =>
        exact ⟨.lparen,
          .reserved "_" :: .symbol a :: (idx.map Index.renderTok ++ [.rparen]),
          by simp [Term.render, QualIdentifier.render, Identifier.render], by simp⟩
    | sorted id srt =>
      exact ⟨.lparen, .reserved "as" :: (id.render ++ srt.render ++ [.rparen]),
        by simp [Term.render, QualIdentifier.render], by simp⟩
  | app qi args => exact ⟨.lparen, _, rfl, by simp⟩
  | lett bs body => exact ⟨.lparen, _, rfl, by simp⟩
  | forallT vs body => exact ⟨.lparen, _, rfl, by simp⟩
  | existsT vs body => exact ⟨.lparen, _, rfl, by simp⟩
  | matchT scrut cs => exact ⟨.lparen, _, rfl, by simp⟩
  | annot t' attrs => exact ⟨.lparen, _, rfl, by simp⟩

theorem termRest_rt_param (ts : List Term)
    (helem : ∀ t ∈ ts, ∀ f rest, t.wf = true → t.need ≤ f →
      parseTerm f (t.render ++ rest) = some (t, rest)) :
    ∀ f rest, Term.wfList ts = true → Term.needList ts ≤ f + 1 →
      parseTermRest (f + 1) (Term.renderList ts ++ Token.rparen :: rest) =
        some (ts, rest) := by
  induction ts with
  | nil => intro f rest _ _; simp [Term.renderList, parseTermRest]
  | cons t ts ih =>
    intro f rest hwf hn
    have hwf1 : t.wf = true ∧ Term.wfList ts = true := by
      simpa [Term.wfList, Bool.and_eq_true] using hwf
    have hpt := term_need_pos t
    have hpl := term_needList_pos ts
    simp only [Term.needList] at hn
    obtain ⟨f', rfl⟩ : ∃ f', f = f' + 1 := by
      cases f with
      | zero => omega
      | succ f' => exact ⟨f', rfl⟩
    obtain ⟨tok, tl, he, hne⟩ := term_render_head t
    simp only [Term.renderList, List.append_assoc]
    have hshape : t.render ++ (Term.renderList ts ++ Token.rparen :: rest) =
        tok :: (tl ++ (Term.renderList ts ++ Token.rparen :: rest)) := by
      rw [he]; rfl
    rw [hshape, parseTermRest_cons _ tok hne, ← hshape]
    have h1 := helem t (by simp) (f' + 1)
      (Term.renderList ts ++ Token.rparen :: rest) hwf1.1 (by omega)
    have h2 := ih (fun x hx => helem x (by simp [hx])) f' rest hwf1.2 (by omega)
    simp [h1, h2]

theorem termList1_rt_param (t : Term) (ts : List Term)
    (helem : ∀ x ∈ t :: ts, ∀ f rest, x.wf = true → x.need ≤ f →
      parseTerm f (x.render ++ rest) = some (x, rest)) :
    ∀ f rest, Term.wfList (t :: ts) = true → Term.needList (t :: ts) ≤ f + 1 →
      parseTermList1 (f + 1) (Term.renderList (t :: ts) ++ Token.rparen :: rest) =
        some (t :: ts, rest) := by
  intro f rest hwf hn
  have hwf1 : t.wf = true ∧ Term.wfList ts = true := by
    simpa [Term.wfList, Bool.and_eq_true] using hwf
  have hpt := term_need_pos t
  have hpl := term_needList_pos ts
  simp only [Term.needList] at hn
  obtain ⟨f', rfl⟩ : ∃ f', f = f' + 1 := by
    cases f with
    | zero => omega
    | succ f' => exact ⟨f', rfl⟩
  simp only [Term.renderList, List.append_assoc, parseTermList1]
  have h1 := helem t (by simp) (f' + 1)
    (Term.renderList ts ++ Token.rparen :: rest) hwf1.1 (by omega)
  have h2 := termRest_rt_param ts (fun x hx => helem x (by simp [hx])) f' rest
    hwf1.2 (by omega)
  simp [h1, h2]

theorem binding_rt (n : String) (t : Term)
    (ht : ∀ f rest, t.wf = true → t.need ≤ f →
      parseTerm f (t.render ++ rest) = some (t, rest)) :
    ∀ f rest, t.wf = true → t.need ≤ f →
      parseBinding (f + 1)
          (Token.lparen :: Token.symbol n :: (t.render ++ Token.rparen :: rest)) =
        some ((n, t), rest) := by
  intro f rest hwf hf
  have h1 := ht f (Token.rparen :: rest) hwf hf
  simp [parseBinding, h1]

theorem bindingRest_rt_param (bs : List (String × Term))
    (helem : ∀ b ∈ bs, ∀ f rest, (b.2).wf = true → (b.2).need ≤ f →
      parseTerm f ((b.2).render ++ rest) = some (b.2, rest)) :
    ∀ f rest, Term.wfBindings bs = true → Term.needBindings bs ≤ f + 1 →
      parseBindingRest (f + 1) (Term.renderBindings bs ++ Token.rparen :: rest) =
        some (bs, rest) := by
  induction bs with
  | nil => intro f rest _ _; simp [Term.renderBindings, parseBindingRest]
  | cons b bs ih =>
    intro f rest hwf hn
    obtain ⟨n, t⟩ := b
    have hwf1 : t.wf = true ∧ Term.wfBindings bs = true := by
      simpa [Term.wfBindings, Bool.and_eq_true] using hwf
    have hpt := term_need_pos t
    have hpl := Term.needBindings_pos bs
    simp only [Term.needBindings] at hn
    obtain ⟨f', rfl⟩ : ∃ f', f = f' + 1 := by
      cases f with
      | zero => omega
      | succ f' => exact ⟨f', rfl⟩
    have h1 := binding_rt n t
      (fun g r hw hg => helem (n, t) (by simp) g r hw hg) f'
      (Term.renderBindings bs ++ Token.rparen :: rest) hwf1.1 (by omega)
    have h2 := ih (fun x hx => helem x (by simp [hx])) f' rest hwf1.2 (by omega)
    simp only [Term.renderBindings, List.cons_append, List.append_assoc,
      List.singleton_append, List.nil_append] at h1 ⊢
    simp [parseBindingRest, h1, h2]

theorem bindingList1_rt_param (b : String × Term) (bs : List (String × Term))
    (helem : ∀ x ∈ b :: bs, ∀ f rest, (x.2).wf = true → (x.2).need ≤ f →
      parseTerm f ((x.2).render ++ rest) = some (x.2, rest)) :
    ∀ f rest, Term.wfBindings (b :: bs) = true →
      Term.needBindings (b :: bs) ≤ f + 1 →
      parseBindingList1 (f + 1)
          (Term.renderBindings (b :: bs) ++ Token.rparen :: rest) =
        some (b :: bs, rest) := by
  intro f rest hwf hn
  obtain ⟨n, t⟩ := b
  have hwf1 : t.wf = true ∧ Term.wfBindings bs = true := by
    simpa [Term.wfBindings, Bool.and_eq_true] using hwf
  have hpt := term_need_pos t
  have hpl := Term.needBindings_pos bs
  simp only [Term.needBindings] at hn
  obtain ⟨f', rfl⟩ : ∃ f', f = f' + 1 := by
    cases f with
    | zero => omega
    | succ f' => exact ⟨f', rfl⟩
  have h1 := binding_rt n t
    (fun g r hw hg => helem (n, t) (by simp) g r hw hg) f'
    (Term.renderBindings bs ++ Token.rparen :: rest) hwf1.1 (by omega)
  have h2 := bindingRest_rt_param bs (fun x hx => helem x (by simp [hx])) f' rest
    hwf1.2 (by omega)
  simp only [Term.renderBindings, List.cons_append, List.append_assoc,
    List.singleton_append, List.nil_append] at h1 ⊢
  simp [parseBindingList1, h1, h2]

theorem case_rt (p : Pattern) (t : Term)
    (ht : ∀ f rest, t.wf = true → t.need ≤ f →
      parseTerm f (t.render ++ rest) = some (t, rest)) :
    ∀ f rest, t.wf = true → p.need ≤ f → t.need ≤ f →
      parseCase (f + 1)
          (Token.lparen :: (p.render ++ (t.render ++ Token.rparen :: rest))) =
        some ((p, t), rest) := by
  intro f rest hwf hp hf
  have h1 := pattern_rt p f (t.render ++ Token.rparen :: rest) hp
  have h2 := ht f (Token.rparen :: rest) hwf hf
  simp [parseCase, h1, h2]

theorem caseRest_rt_param (cs : List (Pattern × Term))
    (helem : ∀ c ∈ cs, ∀ f rest, (c.2).wf = true → (c.2).need ≤ f →
      parseTerm f ((c.2).render ++ rest) = some (c.2, rest)) :
    ∀ f rest, Term.wfCases cs = true → Term.needCases cs ≤ f + 1 →
      parseCaseRest (f + 1) (Term.renderCases cs ++ Token.rparen :: rest) =
        some (cs, rest) := by
  induction cs with
  | nil => intro f rest _ _; simp [Term.renderCases, parseCaseRest]
  | cons c cs ih =>
    intro f rest hwf hn
    obtain ⟨p, t⟩ := c
    have hwf1 : t.wf = true ∧ Term.wfCases cs = true := by
      simpa [Term.wfCases, Bool.and_eq_true] using hwf
    have hpp := pattern_need_pos p
    have hpt := term_need_pos t
    have hpl := Term.needCases_pos cs
    simp only [Term.needCases] at hn
    obtain ⟨f', rfl⟩ : ∃ f', f = f' + 1 := by
      cases f with
      | zero => omega
      | succ f' => exact ⟨f', rfl⟩
    have h1 := case_rt p t
      (fun g r hw hg => helem (p, t) (by simp) g r hw hg) f'
      (Term.renderCases cs ++ Token.rparen :: rest) hwf1.1 (by omega) (by omega)
    have h2 := ih (fun x hx => helem x (by simp [hx])) f' rest hwf1.2 (by omega)
    simp only [Term.renderCases, List.cons_append, List.append_assoc,
      List.singleton_append, List.nil_append] at h1 ⊢
    simp [parseCaseRest, h1, h2]

theorem caseList1_rt_param (c : Pattern × Term) (cs : List (Pattern × Term))
    (helem : ∀ x ∈ c :: cs, ∀ f rest, (x.2).wf = true → (x.2).need ≤ f →
      parseTerm f ((x.2).render ++ rest) = some (x.2, rest)) :
    ∀ f rest, Term.wfCases (c :: cs) = true → Term.needCases (c :: cs) ≤ f + 1 →
      parseCaseList1 (f + 1) (Term.renderCases (c :: cs) ++ Token.rparen :: rest) =
        some (c :: cs, rest) := by
  intro f rest hwf hn
  obtain ⟨p, t⟩ := c
  have hwf1 : t.wf = true ∧ Term.wfCases cs = true := by
    simpa [Term.wfCases, Bool.and_eq_true] using hwf
  have hpp := pattern_need_pos p
  have hpt := term_need_pos t
  have hpl := Term.needCases_pos cs
  simp only [Term.needCases] at hn
  obtain ⟨f', rfl⟩ : ∃ f', f = f' + 1 := by
    cases f with
    | zero => omega
    | succ f' => exact ⟨f', rfl⟩
  have h1 := case_rt p t
    (fun g r hw hg => helem (p, t) (by simp) g r hw hg) f'
    (Term.renderCases cs ++ Token.rparen :: rest) hwf1.1 (by omega) (by omega)
  have h2 := caseRest_rt_param cs (fun x hx => helem x (by simp [hx])) f' rest
    hwf1.2 (by omega)
  simp only [Term.renderCases, List.cons_append, List.append_assoc,
    List.singleton_append, List.nil_append] at h1 ⊢
  simp [parseCaseList1, h1, h2]

theorem binding_need_lt_of_mem {bs : List (String × Term)} {b : String × Term}
    (h : b ∈ bs) : (b.2).need < Term.needBindings bs := by
  induction bs with
  | nil => simp at h
  | cons a as ih =>
    obtain ⟨n, t⟩ := a
    rcases List.mem_cons.mp h with e | m
    · subst e; simp only [Term.needBindings]; omega
    · have := ih m; simp only [Term.needBindings]; omega

theorem case_need_lt_of_mem {cs : List (Pattern × Term)} {c : Pattern × Term}
    (h : c ∈ cs) : (c.2).need < Term.needCases cs := by
  induction cs with
  | nil => simp at h
  | cons a as ih =>
    obtain ⟨p, t⟩ := a
    rcases List.mem_cons.mp h with e | m
    · subst e; simp only [Term.needCases]; omega
    · have := ih m; simp only [Term.needCases]; omega

theorem term_rt (t : Term) :
    ∀ f rest, t.wf = true → t.need ≤ f →
      parseTerm f (t.render ++ rest) = some (t, rest) := by
  have key : ∀ N (t : Term), t.need ≤ N → ∀ f rest, t.wf = true → t.need ≤ f →
      parseTerm f (t.render ++ rest) = some (t, rest) := by
    intro N
    induction N with
    | zero =>
      intro t hN
      have := term_need_pos t
      omega
    | succ N ihN =>
      intro t hN f rest hwf hf
      obtain ⟨f', rfl⟩ : ∃ f', f = f' + 1 := by
        have := term_need_pos t
        cases f with
        | zero => omega
        | succ f' => exact ⟨f', rfl⟩
      cases t with
      | const c =>
        cases c <;> simp [Term.render, SpecConstant.renderTok, parseTerm]
      | ident qi =>
        have hq : qi.wf = true := by simpa [Term.wf] using hwf
        have hpq := Qualidentifier_need_pos qi
        simp only [Term.need] at hf
        cases qi with
        | identifier id =>
          cases id with
          | simple a =>
            simp [Term.render, QualIdentifier.render, Identifier.render, parseTerm]
          | indexed a idx =>
            have h1 := identifier_rt (Identifier.indexed a idx) f' rest
              (by simpa [QualIdentifier.wf] using hq)
              (by simp only [QualIdentifier.need] at hf; omega)
            simp only [Term.render, QualIdentifier.render, Identifier.render,
              List.cons_append, List.append_assoc, List.singleton_append,
              List.nil_append] at h1 ⊢
            simp [parseTerm, h1]
        | sorted id srt =>
          have h1 := qual_rt (QualIdentifier.sorted id srt) f' rest hq (by omega)
          simp only [Term.render, QualIdentifier.render, List.cons_append,
            List.append_assoc, List.singleton_append, List.nil_append] at h1 ⊢
          simp [parseTerm, h1]
      | app qi args =>
        have hw3 : qi.wf = true ∧ args ≠ [] ∧ Term.wfList args = true := by
          have h0 : (qi.wf && !args.isEmpty && Term.wfList args) = true := hwf
          simp only [Bool.and_eq_true] at h0
          refine ⟨h0.1.1, ?_, h0.2⟩
          have := h0.1.2
          simpa using this
        obtain ⟨a, args', rfl⟩ : ∃ a args', args = a :: args' := by
          cases args with
          | nil => exact absurd rfl hw3.2.1
          | cons a args' => exact ⟨a, args', rfl⟩
        have hpq := Qualidentifier_need_pos qi
        have hpl := term_needList_pos (a :: args')
        simp only [Term.need] at hN hf
        obtain ⟨f'', rfl⟩ : ∃ f'', f' = f'' + 1 := by
          cases f' with
          | zero => omega
          | succ f'' => exact ⟨f'', rfl⟩
        have helem : ∀ x ∈ a :: args', ∀ g rest', x.wf = true → x.need ≤ g →
            parseTerm g (x.render ++ rest') = some (x, rest') := by
          intro x hx g rest' hwx hgx
          have := need_lt_of_mem hx
          exact ihN x (by omega) g rest' hwx hgx
        have h2 := termList1_rt_param a args' helem f'' rest hw3.2.2 (by omega)
        cases qi with
        | identifier id =>
          cases id with
          | simple s =>
            simp only [Term.render, QualIdentifier.render, Identifier.render,
              List.cons_append, List.append_assoc, List.singleton_append,
              List.nil_append] at h2 ⊢
            simp [parseTerm, h2]
          | indexed s idx =>
            have h1 := qual_rt (QualIdentifier.identifier (.indexed s idx)) (f'' + 1)
              (Term.renderList (a :: args') ++ Token.rparen :: rest) hw3.1 (by omega)
            simp only [Term.render, QualIdentifier.render, Identifier.render,
              List.cons_append, List.append_assoc, List.singleton_append,
              List.nil_append] at h1 h2 ⊢
            simp [parseTerm, h1, h2]
        | sorted id srt =>
          have h1 := qual_rt (QualIdentifier.sorted id srt) (f'' + 1)
            (Term.renderList (a :: args') ++ Token.rparen :: rest) hw3.1 (by omega)
          simp only [Term.render, QualIdentifier.render, List.cons_append,
            List.append_assoc, List.singleton_append, List.nil_append] at h1 h2 ⊢
          simp [parseTerm, h1, h2]
      | lett bs body =>
        have hw3 : bs ≠ [] ∧ Term.wfBindings bs = true ∧ body.wf = true := by
          have h0 : (!bs.isEmpty && Term.wfBindings bs && body.wf) = true := hwf
          simp only [Bool.and_eq_true] at h0
          refine ⟨?_, h0.1.2, h0.2⟩
          have := h0.1.1
          simpa using this
        obtain ⟨b, bs', rfl⟩ : ∃ b bs', bs = b :: bs' := by
          cases bs with
          | nil => exact absurd rfl hw3.1
          | cons b bs' => exact ⟨b, bs', rfl⟩
        have hpb := Term.needBindings_pos (b :: bs')
        have hpbody := term_need_pos body
        simp only [Term.need] at hN hf
        obtain ⟨f'', rfl⟩ : ∃ f'', f' = f'' + 1 := by
          cases f' with
          | zero => omega
          | succ f'' => exact ⟨f'', rfl⟩
        have helem : ∀ x ∈ b :: bs', ∀ g rest', (x.2).wf = true → (x.2).need ≤ g →
            parseTerm g ((x.2).render ++ rest') = some (x.2, rest') := by
          intro x hx g rest' hwx hgx
          have := binding_need_lt_of_mem hx
          exact ihN x.2 (by omega) g rest' hwx hgx
        have h1 := bindingList1_rt_param b bs' helem f''
          (body.render ++ Token.rparen :: rest) hw3.2.1 (by omega)
        have h2 := ihN body (by omega) (f'' + 1) (Token.rparen :: rest)
          hw3.2.2 (by omega)
        simp only [Term.render, List.cons_append, List.append_assoc,
          List.singleton_append, List.nil_append] at h1 h2 ⊢
        simp [parseTerm, h1, h2]
      | forallT vs body =>
        have hw3 : vs ≠ [] ∧ wfVars vs = true ∧ body.wf = true := by
          have h0 : (!vs.isEmpty && wfVars vs && body.wf) = true := hwf
          simp only [Bool.and_eq_true] at h0
          refine ⟨?_, h0.1.2, h0.2⟩
          have := h0.1.1
          simpa using this
        obtain ⟨v, vs', rfl⟩ : ∃ v vs', vs = v :: vs' := by
          cases vs with
          | nil => exact absurd rfl hw3.1
          | cons v vs' => exact ⟨v, vs', rfl⟩
        have hpv := needVars_pos (v :: vs')
        have hpbody := term_need_pos body
        simp only [Term.need] at hN hf
        obtain ⟨f'', rfl⟩ : ∃ f'', f' = f'' + 1 := by
          cases f' with
          | zero => omega
          | succ f'' => exact ⟨f'', rfl⟩
        have h1 := varList1_rt v vs' f''
          (body.render ++ Token.rparen :: rest) hw3.2.1 (by omega)
        have h2 := ihN body (by omega) (f'' + 1) (Token.rparen :: rest)
          hw3.2.2 (by omega)
        simp only [Term.render, List.cons_append, List.append_assoc,
          List.singleton_append, List.nil_append] at h1 h2 ⊢
        simp [parseTerm, h1, h2]
      | existsT vs body =>
        have hw3 : vs ≠ [] ∧ wfVars vs = true ∧ body.wf = true := by
          have h0 : (!vs.isEmpty && wfVars vs && body.wf) = true := hwf
          simp only [Bool.and_eq_true] at h0
          refine ⟨?_, h0.1.2, h0.2⟩
          have := h0.1.1
          simpa using this
        obtain ⟨v, vs', rfl⟩ : ∃ v vs', vs = v :: vs' := by
          cases vs with
          | nil => exact absurd rfl hw3.1
          | cons v vs' => exact ⟨v, vs', rfl⟩
        have hpv := needVars_pos (v :: vs')
        have hpbody := term_need_pos body
        simp only [Term.need] at hN hf
        obtain ⟨f'', rfl⟩ : ∃ f'', f' = f'' + 1 := by
          cases f' with
          | zero => omega
          | succ f'' => exact ⟨f'', rfl⟩
        have h1 := varList1_rt v vs' f''
          (body.render ++ Token.rparen :: rest) hw3.2.1 (by omega)
        have h2 := ihN body (by omega) (f'' + 1) (Token.rparen :: rest)
          hw3.2.2 (by omega)
        simp only [Term.render, List.cons_append, List.append_assoc,
          List.singleton_append, List.nil_append] at h1 h2 ⊢
        simp [parseTerm, h1, h2]
      | matchT scrut cs =>
        have hw3 : scrut.wf = true ∧ cs ≠ [] ∧ Term.wfCases cs = true := by
          have h0 : (scrut.wf && !cs.isEmpty && Term.wfCases cs) = true := hwf
          simp only [Bool.and_eq_true] at h0
          refine ⟨h0.1.1, ?_, h0.2⟩
          have := h0.1.2
          simpa using this
        obtain ⟨c, cs', rfl⟩ : ∃ c cs', cs = c :: cs' := by
          cases cs with
          | nil => exact absurd rfl hw3.2.1
          | cons c cs' => exact ⟨c, cs', rfl⟩
        have hps := term_need_pos scrut
        have hpc := Term.needCases_pos (c :: cs')
        simp only [Term.need] at hN hf
        obtain ⟨f'', rfl⟩ : ∃ f'', f' = f'' + 1 := by
          cases f' with
          | zero => omega
          | succ f'' => exact ⟨f'', rfl⟩
        have helem : ∀ x ∈ c :: cs', ∀ g rest', (x.2).wf = true → (x.2).need ≤ g →
            parseTerm g ((x.2).render ++ rest') = some (x.2, rest') := by
          intro x hx g rest' hwx hgx
          have := case_need_lt_of_mem hx
          exact ihN x.2 (by omega) g rest' hwx hgx
        have h1 := ihN scrut (by omega) (f'' + 1)
          (Token.lparen :: (Term.renderCases (c :: cs') ++
            Token.rparen :: Token.rparen :: rest)) hw3.1 (by omega)
        have h2 := caseList1_rt_param c cs' helem f'' (Token.rparen :: rest)
          hw3.2.2 (by omega)
        simp only [Term.render, List.cons_append, List.append_assoc,
          List.singleton_append, List.nil_append] at h1 h2 ⊢
        simp [parseTerm, h1, h2]
      | annot t' attrs =>
        have hw2 : t'.wf = true ∧ attrs ≠ [] := by
          have h0 : (t'.wf && !attrs.isEmpty) = true := hwf
          simp only [Bool.and_eq_true] at h0
          refine ⟨h0.1, ?_⟩
          have := h0.2
          simpa using this
        obtain ⟨a, attrs', rfl⟩ : ∃ a attrs', attrs = a :: attrs' := by
          cases attrs with
          | nil => exact absurd rfl hw2.2
          | cons a attrs' => exact ⟨a, attrs', rfl⟩
        have hpt := term_need_pos t'
        have hpa := Attribute.needAll_pos (a :: attrs')
        simp only [Term.need] at hN hf
        obtain ⟨f'', rfl⟩ : ∃ f'', f' = f'' + 1 := by
          cases f' with
          | zero => omega
          | succ f'' => exact ⟨f'', rfl⟩
        have h1 := ihN t' (by omega) (f'' + 1)
          (Attribute.renderAll (a :: attrs') ++ Token.rparen :: rest)
          hw2.1 (by omega)
        have h2 := attrList1_rt a attrs' f'' rest (by omega)
        simp only [Term.render, List.cons_append, List.append_assoc,
          List.singleton_append, List.nil_append] at h1 h2 ⊢
        simp [parseTerm, h1, h2]
  exact fun f rest hwf hf => key t.need t le_rfl f rest hwf hf

set_option maxHeartbeats 8000000 in
theorem parse_wf_all : ∀ f : Nat,
    (∀ toks x rest, parseIndexList1 f toks = some (x, rest) → x ≠ []) ∧
    (∀ toks x rest, parseIdentifier f toks = some (x, rest) → x.wf = true) ∧
    (∀ toks x rest, parseSort f toks = some (x, rest) → x.wf = true) ∧
    (∀ toks x rest, parseSortList1 f toks = some (x, rest) →
      x ≠ [] ∧ SmtSort.wfList x = true) ∧
    (∀ toks x rest, parseSortRest f toks = some (x, rest) →
      SmtSort.wfList x = true) ∧
    (∀ toks x rest, parseQualIdentifier f toks = some (x, rest) → x.wf = true) ∧
    (∀ toks x rest, parseTerm f toks = some (x, rest) → x.wf = true) ∧
    (∀ toks x rest, parseTermList1 f toks = some (x, rest) →
      x ≠ [] ∧ Term.wfList x = true) ∧
    (∀ toks x rest, parseTermRest f toks = some (x, rest) → Term.wfList x = true) ∧
    (∀ toks x rest, parseBinding f toks = some (x, rest) → (x.2).wf = true) ∧
    (∀ toks x rest, parseBindingList1 f toks = some (x, rest) →
      x ≠ [] ∧ Term.wfBindings x = true) ∧
    (∀ toks x rest, parseBindingRest f toks = some (x, rest) →
      Term.wfBindings x = true) ∧
    (∀ toks x rest, parseSortedVar f toks = some (x, rest) → (x.2).wf = true) ∧
    (∀ toks x rest, parseVarList1 f toks = some (x, rest) →
      x ≠ [] ∧ wfVars x = true) ∧
    (∀ toks x rest, parseVarRest f toks = some (x, rest) → wfVars x = true) ∧
    (∀ toks x rest, parseCase f toks = some (x, rest) → (x.2).wf = true) ∧
    (∀ toks x rest, parseCaseList1 f toks = some (x, rest) →
      x ≠ [] ∧ Term.wfCases x = true) ∧
    (∀ toks x rest, parseCaseRest f toks = some (x, rest) →
      Term.wfCases x = true) ∧
    (∀ toks x rest, parseAttributeList1 f toks = some (x, rest) → x ≠ []) := by
  intro f
  induction f with
  | zero =>
    refine ⟨?_, ?_, ?_, ?_, ?_, ?_, ?_, ?_, ?_, ?_, ?_, ?_, ?_, ?_, ?_, ?_, ?_,
      ?_, ?_⟩ <;>
      intro toks x rest h <;>
      simp [parseIndexList1, parseIdentifier, parseSort, parseSortList1,
        parseSortRest, parseQualIdentifier, parseTerm, parseTermList1,
        parseTermRest, parseBinding, parseBindingList1, parseBindingRest,
        parseSortedVar, parseVarList1, parseVarRest, parseCase, parseCaseList1,
        parseCaseRest, parseAttributeList1] at h
  | succ f ih =>
    obtain ⟨ihIdx, ihId, ihSort, ihSortL1, ihSortR, ihQual, ihTerm, ihTermL1,
      ihTermR, ihBind, ihBindL1, ihBindR, ihVar, ihVarL1, ihVarR, ihCase,
      ihCaseL1, ihCaseR, ihAttrL1⟩ := ih
    refine ⟨?_, ?_, ?_, ?_, ?_, ?_, ?_, ?_, ?_, ?_, ?_, ?_, ?_, ?_, ?_, ?_, ?_,
      ?_, ?_⟩ <;>
      intro toks x rest h
    · rw [parseIndexList1.eq_def] at h
      repeat' split at h
      all_goals (try (simp only [Option.some.injEq, Prod.mk.injEq] at h))
      all_goals (try (obtain ⟨rfl, rfl⟩ := h))
      all_goals (try simp_all)
      all_goals (repeat' constructor)
    · rw [parseIdentifier.eq_def] at h
      repeat' split at h
      all_goals (try (simp only [Option.some.injEq, Prod.mk.injEq] at h))
      all_goals (try (obtain ⟨rfl, rfl⟩ := h))
      all_goals (try simp_all [Identifier.wf])
      all_goals (repeat' constructor)
      all_goals (first
        | exact ihIdx _ _ _ (by assumption))
    · rw [parseSort.eq_def] at h
      repeat' split at h
      all_goals (try (simp only [Option.some.injEq, Prod.mk.injEq] at h))
      all_goals (try (obtain ⟨rfl, rfl⟩ := h))
      all_goals (try simp_all [SmtSort.wf, Identifier.wf])
      all_goals (repeat' constructor)
      all_goals (first
        | exact ihId _ _ _ (by assumption)
        | exact (ihSortL1 _ _ _ (by assumption)).1
        | exact (ihSortL1 _ _ _ (by assumption)).2)
    · rw [parseSortList1.eq_def] at h
      repeat' split at h
      all_goals (try (simp only [Option.some.injEq, Prod.mk.injEq] at h))
      all_goals (try (obtain ⟨rfl, rfl⟩ := h))
      all_goals (try simp_all [SmtSort.wfList])
      all_goals (repeat' constructor)
      all_goals (first
        | exact ihSort _ _ _ (by assumption)
        | exact ihSortR _ _ _ (by assumption))
    · rw [parseSortRest.eq_def] at h
      repeat' split at h
      all_goals (try (simp only [Option.some.injEq, Prod.mk.injEq] at h))
      all_goals (try (obtain ⟨rfl, rfl⟩ := h))
      all_goals (try simp_all [SmtSort.wfList])
      all_goals (repeat' constructor)
      all_goals (first
        | exact ihSort _ _ _ (by assumption)
        | exact ihSortR _ _ _ (by assumption))
    · rw [parseQualIdentifier.eq_def] at h
      repeat' split at h
      all_goals (try (simp only [Option.some.injEq, Prod.mk.injEq] at h))
      all_goals (try (obtain ⟨rfl, rfl⟩ := h))
      all_goals (try simp_all [QualIdentifier.wf, Identifier.wf, SmtSort.wf])
      all_goals (repeat' constructor)
      all_goals (first
        | exact ihId _ _ _ (by assumption)
        | exact ihSort _ _ _ (by assumption))
    · rw [parseTerm.eq_def] at h
      repeat' split at h
      all_goals (try (simp only [Option.some.injEq, Prod.mk.injEq] at h))
      all_goals (try (obtain ⟨rfl, rfl⟩ := h))
      all_goals (try simp_all [Term.wf, QualIdentifier.wf, Identifier.wf, SmtSort.wf])
      all_goals (repeat' constructor)
      all_goals (first
        | exact ihIdx _ _ _ (by assumption)
        | exact ihId _ _ _ (by assumption)
        | exact ihSort _ _ _ (by assumption)
        | exact ihQual _ _ _ (by assumption)
        | exact ihTerm _ _ _ (by assumption)
        | exact (ihTermL1 _ _ _ (by assumption)).1
        | exact (ihTermL1 _ _ _ (by assumption)).2
        | exact (ihBindL1 _ _ _ (by assumption)).1
        | exact (ihBindL1 _ _ _ (by assumption)).2
        | exact (ihVarL1 _ _ _ (by assumption)).1
        | exact (ihVarL1 _ _ _ (by assumption)).2
        | exact (ihCaseL1 _ _ _ (by assumption)).1
        | exact (ihCaseL1 _ _ _ (by assumption)).2
        | exact ihAttrL1 _ _ _ (by assumption))
    · rw [parseTermList1.eq_def] at h
      repeat' split at h
      all_goals (try (simp only [Option.some.injEq, Prod.mk.injEq] at h))
      all_goals (try (obtain ⟨rfl, rfl⟩ := h))
      all_goals (try simp_all [Term.wfList])
      all_goals (repeat' constructor)
      all_goals (first
        | exact ihTerm _ _ _ (by assumption)
        | exact ihTermR _ _ _ (by assumption))
    · rw [parseTermRest.eq_def] at h
      repeat' split at h
      all_goals (try (simp only [Option.some.injEq, Prod.mk.injEq] at h))
      all_goals (try (obtain ⟨rfl, rfl⟩ := h))
      all_goals (try simp_all [Term.wfList])
      all_goals (repeat' constructor)
      all_goals (first
        | exact ihTerm _ _ _ (by assumption)
        | exact ihTermR _ _ _ (by assumption))
    · rw [parseBinding.eq_def] at h
      repeat' split at h
      all_goals (try (simp only [Option.some.injEq, Prod.mk.injEq] at h))
      all_goals (try (obtain ⟨rfl, rfl⟩ := h))
      all_goals (try simp_all)
      all_goals (repeat' constructor)
      all_goals (first
        | exact ihTerm _ _ _ (by assumption))
    · rw [parseBindingList1.eq_def] at h
      repeat' split at h
      all_goals (try (simp only [Option.some.injEq, Prod.mk.injEq] at h))
      all_goals (try (obtain ⟨rfl, rfl⟩ := h))
      all_goals (try simp_all [Term.wfBindings])
      all_goals (repeat' constructor)
      all_goals (first
        | exact ihBind _ _ _ _ (by assumption)
        | exact ihBind _ _ _ (by assumption)
        | exact ihBindR _ _ _ (by assumption))
    · rw [parseBindingRest.eq_def] at h
      repeat' split at h
      all_goals (try (simp only [Option.some.injEq, Prod.mk.injEq] at h))
      all_goals (try (obtain ⟨rfl, rfl⟩ := h))
      all_goals (try simp_all [Term.wfBindings])
      all_goals (repeat' constructor)
      all_goals (first
        | exact ihBind _ _ _ _ (by assumption)
        | exact ihBind _ _ _ (by assumption)
        | exact ihBindR _ _ _ (by assumption))
    · rw [parseSortedVar.eq_def] at h
      repeat' split at h
      all_goals (try (simp only [Option.some.injEq, Prod.mk.injEq] at h))
      all_goals (try (obtain ⟨rfl, rfl⟩ := h))
      all_goals (try simp_all [SmtSort.wf, Identifier.wf])
      all_goals (repeat' constructor)
      all_goals (first
        | exact ihSort _ _ _ (by assumption))
    · rw [parseVarList1.eq_def] at h
      repeat' split at h
      all_goals (try (simp only [Option.some.injEq, Prod.mk.injEq] at h))
      all_goals (try (obtain ⟨rfl, rfl⟩ := h))
      all_goals (try simp_all [wfVars])
      all_goals (repeat' constructor)
      all_goals (first
        | exact ihVar _ _ _ _ (by assumption)
        | exact ihVar _ _ _ (by assumption)
        | exact ihVarR _ _ _ (by assumption))
    · rw [parseVarRest.eq_def] at h
      repeat' split at h
      all_goals (try (simp only [Option.some.injEq, Prod.mk.injEq] at h))
      all_goals (try (obtain ⟨rfl, rfl⟩ := h))
      all_goals (try simp_all [wfVars])
      all_goals (repeat' constructor)
      all_goals (first
        | exact ihVar _ _ _ _ (by assumption)
        | exact ihVar _ _ _ (by assumption)
        | exact ihVarR _ _ _ (by assumption))
    · rw [parseCase.eq_def] at h
      repeat' split at h
      all_goals (try (simp only [Option.some.injEq, Prod.mk.injEq] at h))
      all_goals (try (obtain ⟨rfl, rfl⟩ := h))
      all_goals (try simp_all)
      all_goals (repeat' constructor)
      all_goals (first
        | exact ihTerm _ _ _ (by assumption))
    · rw [parseCaseList1.eq_def] at h
      repeat' split at h
      all_goals (try (simp only [Option.some.injEq, Prod.mk.injEq] at h))
      all_goals (try (obtain ⟨rfl, rfl⟩ := h))
      all_goals (try simp_all [Term.wfCases])
      all_goals (repeat' constructor)
      all_goals (first
        | exact ihCase _ _ _ _ (by assumption)
        | exact ihCase _ _ _ (by assumption)
        | exact ihCaseR _ _ _ (by assumption))
    · rw [parseCaseRest.eq_def] at h
      repeat' split at h
      all_goals (try (simp only [Option.some.injEq, Prod.mk.injEq] at h))
      all_goals (try (obtain ⟨rfl, rfl⟩ := h))
      all_goals (try simp_all [Term.wfCases])
      all_goals (repeat' constructor)
      all_goals (first
        | exact ihCase _ _ _ _ (by assumption)
        | exact ihCase _ _ _ (by assumption)
        | exact ihCaseR _ _ _ (by assumption))
    · rw [parseAttributeList1.eq_def] at h
      repeat' split at h
      all_goals (try (simp only [Option.some.injEq, Prod.mk.injEq] at h))
      all_goals (try (obtain ⟨rfl, rfl⟩ := h))
      all_goals (try simp_all)
      all_goals (repeat' constructor)

/-- The fuel needed for an index list is one more than its length. -/
theorem needIdxList_eq (is : List Index) : needIdxList is = is.length + 1 := by
  induction is with
  | nil => simp [needIdxList]
  | cons i is ih => simp [needIdxList, ih]; omega

/-- Fuel bound for identifiers against their rendered length. -/
theorem identifier_need_le (id : Identifier) :
    id.need + 3 ≤ 5 * id.render.length := by
  cases id with
  | simple s => simp [Identifier.need, Identifier.render]
  | indexed s is =>
    simp [Identifier.need, Identifier.render, needIdxList_eq]
    omega

/-- Fuel bound for a sort list, parameterized by the element bound. -/
theorem smtSort_needList_le_param (ss : List SmtSort)
    (helem : ∀ x ∈ ss, x.need + 1 ≤ 5 * x.render.length) :
    SmtSort.needList ss ≤ 5 * (SmtSort.renderList ss).length + 1 := by
  induction ss with
  | nil => simp [SmtSort.needList, SmtSort.renderList]
  | cons s ss ih =>
    have h1 := helem s (by simp)
    have h2 := ih (fun x hx => helem x (by simp [hx]))
    simp only [SmtSort.needList, SmtSort.renderList, List.length_append]
    omega

/-- Fuel bound for sorts against their rendered length. -/
theorem smtSort_need_le (s : SmtSort) : s.need + 1 ≤ 5 * s.render.length := by
  have key : ∀ N s, SmtSort.need s ≤ N →
      SmtSort.need s + 1 ≤ 5 * s.render.length := by
    intro N
    induction N with
    | zero => intro s hs; have := smtSort_need_pos s; omega
    | succ N ihN =>
      intro s hs
      match s with
      | .sort id =>
        have hid := identifier_need_le id
        simp only [SmtSort.need, SmtSort.render]
        omega
      | .parametric id args =>
        have hid := identifier_need_le id
        have hpid := identifier_need_pos id
        have hargs := smtSort_needList_le_param args (fun x hx => by
          refine ihN x ?_
          have := sort_need_lt_of_mem hx
          simp only [SmtSort.need] at hs
          omega)
        simp only [SmtSort.need, SmtSort.render, List.length_cons,
          List.length_append]
        omega
  exact key s.need s le_rfl

/-- Fuel bound for sort lists against their rendered length. -/
theorem smtSort_needList_le (ss : List SmtSort) :
    SmtSort.needList ss ≤ 5 * (SmtSort.renderList ss).length + 1 :=
  smtSort_needList_le_param ss (fun x _ => smtSort_need_le x)

/-- Fuel bound for qualified identifiers against their rendered length. -/
theorem Qualidentifier_need_le (qi : QualIdentifier) :
    qi.need + 2 ≤ 5 * qi.render.length := by
  cases qi with
  | identifier id =>
    have hid := identifier_need_le id
    simp only [QualIdentifier.need, QualIdentifier.render]
    omega
  | sorted id s =>
    have hid := identifier_need_le id
    have hs := smtSort_need_le s
    simp only [QualIdentifier.need, QualIdentifier.render, List.length_append,
      List.length_cons]
    omega

/-- Fuel bound for an S-expression list, parameterized by the element bound. -/
theorem sexpr_needList_le_param (es : List SExpr)
    (helem : ∀ x ∈ es, x.need + 1 ≤ 5 * x.render.length) :
    SExpr.needList es ≤ 5 * (SExpr.renderList es).length + 1 := by
  induction es with
  | nil => simp [SExpr.needList, SExpr.renderList]
  | cons e es ih =>
    have h1 := helem e (by simp)
    have h2 := ih (fun x hx => helem x (by simp [hx]))
    simp only [SExpr.needList, SExpr.renderList, List.length_append]
    omega

/-- Fuel bound for S-expressions against their rendered length. -/
theorem sexpr_need_le (e : SExpr) : e.need + 1 ≤ 5 * e.render.length := by
  have key : ∀ N e, SExpr.need e ≤ N →
      SExpr.need e + 1 ≤ 5 * e.render.length := by
    intro N
    induction N with
    | zero => intro e he; have := sexpr_need_pos e; omega
    | succ N ihN =>
      intro e he
      match e with
      | .atom a => simp [SExpr.need, SExpr.render]
      | .list es =>
        have hes := sexpr_needList_le_param es (fun x hx => by
          refine ihN x ?_
          have := sexpr_need_lt_of_mem hx
          simp only [SExpr.need] at he
          omega)
        simp only [SExpr.need, SExpr.render, List.length_cons,
          List.length_append]
        omega
  exact key e.need e le_rfl

/-- Fuel bound for S-expression lists against their rendered length. -/
theorem sexpr_needList_le (es : List SExpr) :
    SExpr.needList es ≤ 5 * (SExpr.renderList es).length + 1 :=
  sexpr_needList_le_param es (fun x _ => sexpr_need_le x)

/-- Fuel bound for attribute values against their rendered length. -/
theorem attributeValue_need_le (v : AttributeValue) :
    v.need + 1 ≤ 5 * v.render.length := by
  cases v with
  | const c => simp [AttributeValue.need, AttributeValue.render]
  | sym s => simp [AttributeValue.need, AttributeValue.render]
  | expr es =>
    have hes := sexpr_needList_le es
    simp only [AttributeValue.need, AttributeValue.render, List.length_cons,
      List.length_append]
    omega

/-- Fuel bound for attributes against their rendered length. -/
theorem attribute_need_le (a : Attribute) : a.need + 1 ≤ 5 * a.render.length := by
  cases a with
  | flag k => simp [Attribute.need, Attribute.render]
  | withValue k v =>
    have hv := attributeValue_need_le v
    simp only [Attribute.need, Attribute.render, List.length_cons]
    omega

/-- Fuel bound for attribute lists against their rendered length. -/
theorem Attribute.needAll_le (as : List Attribute) :
    Attribute.needAll as ≤ 5 * (Attribute.renderAll as).length + 1 := by
  induction as with
  | nil => simp [Attribute.needAll, Attribute.renderAll]
  | cons a as ih =>
    have h1 := attribute_need_le a
    simp only [Attribute.needAll, Attribute.renderAll, List.length_append]
    omega

/-- Fuel bound for patterns against their rendered length. -/
theorem pattern_need_le (p : Pattern) : p.need + 1 ≤ 5 * p.render.length := by
  obtain ⟨c, as⟩ := p
  cases as with
  | nil => simp [Pattern.need, Pattern.render]
  | cons a as =>
    simp [Pattern.need, Pattern.render]
    omega

/-- Fuel bound for sorted-variable lists against their rendered length. -/
theorem needVars_le (vs : List (String × SmtSort)) :
    needVars vs ≤ 5 * (renderVars vs).length + 1 := by
  induction vs with
  | nil => simp [needVars, renderVars]
  | cons v vs ih =>
    obtain ⟨n, srt⟩ := v
    have h1 := smtSort_need_le srt
    simp only [needVars, renderVars, renderVar, List.length_append,
      List.length_cons]
    omega

/-- Fuel bound for argument lists, parameterized by the element bound. -/
theorem term_needList_le_param (ts : List Term)
    (helem : ∀ x ∈ ts, Term.need x + 1 ≤ 5 * (Term.render x).length) :
    Term.needList ts ≤ 5 * (Term.renderList ts).length + 1 := by
  induction ts with
  | nil => simp [Term.needList, Term.renderList]
  | cons t ts ih =>
    have h1 := helem t (by simp)
    have h2 := ih (fun x hx => helem x (by simp [hx]))
    simp only [Term.needList, Term.renderList, List.length_append]
    omega

/-- Fuel bound for binding lists, parameterized by the element bound. -/
theorem Term.needBindings_le_param (bs : List (String × Term))
    (helem : ∀ x ∈ bs, Term.need x.2 + 1 ≤ 5 * (Term.render x.2).length) :
    Term.needBindings bs ≤ 5 * (Term.renderBindings bs).length + 1 := by
  induction bs with
  | nil => simp [Term.needBindings, Term.renderBindings]
  | cons b bs ih =>
    obtain ⟨s, t⟩ := b
    have h1 : Term.need t + 1 ≤ 5 * (Term.render t).length := helem (s, t) (by simp)
    have h2 := ih (fun x hx => helem x (by simp [hx]))
    simp only [Term.needBindings, Term.renderBindings, List.length_append,
      List.length_cons]
    omega

/-- Fuel bound for case lists, parameterized by the element bound. -/
theorem Term.needCases_le_param (cs : List (Pattern × Term))
    (helem : ∀ x ∈ cs, Term.need x.2 + 1 ≤ 5 * (Term.render x.2).length) :
    Term.needCases cs ≤ 5 * (Term.renderCases cs).length + 1 := by
  induction cs with
  | nil => simp [Term.needCases, Term.renderCases]
  | cons c cs ih =>
    obtain ⟨p, t⟩ := c
    have h1 : Term.need t + 1 ≤ 5 * (Term.render t).length := helem (p, t) (by simp)
    have hp := pattern_need_le p
    have h2 := ih (fun x hx => helem x (by simp [hx]))
    simp only [Term.needCases, Term.renderCases, List.length_append,
      List.length_cons]
    omega

/-- Fuel bound for terms against their rendered length: running the parser
with five units of fuel per rendered token always suffices. -/
theorem term_need_le (t : Term) : t.need + 1 ≤ 5 * t.render.length := by
  have key : ∀ N t, Term.need t ≤ N →
      Term.need t + 1 ≤ 5 * (Term.render t).length := by
    intro N
    induction N with
    | zero => intro t ht; have := term_need_pos t; omega
    | succ N ihN =>
      intro t ht
      match t with
      | .const c => simp [Term.need, Term.render]
      | .ident qi =>
        have hqi := Qualidentifier_need_le qi
        simp only [Term.need, Term.render]
        omega
      | .app qi args =>
        have hqi := Qualidentifier_need_le qi
        have hargs := term_needList_le_param args (fun x hx => by
          refine ihN x ?_
          have := need_lt_of_mem hx
          simp only [Term.need] at ht
          omega)
        simp only [Term.need, Term.render, List.length_cons, List.length_append]
        omega
      | .lett bs body =>
        have hbs := Term.needBindings_le_param bs (fun x hx => by
          refine ihN x.2 ?_
          have := binding_need_lt_of_mem hx
          simp only [Term.need] at ht
          omega)
        have hbody : Term.need body + 1 ≤ 5 * (Term.render body).length := by
          refine ihN body ?_
          have := Term.needBindings_pos bs
          simp only [Term.need] at ht
          omega
        simp only [Term.need, Term.render, List.length_cons, List.length_append]
        omega
      | .forallT vs body =>
        have hvs := needVars_le vs
        have hbody : Term.need body + 1 ≤ 5 * (Term.render body).length := by
          refine ihN body ?_
          have := needVars_pos vs
          simp only [Term.need] at ht
          omega
        simp only [Term.need, Term.render, List.length_cons, List.length_append]
        omega
      | .existsT vs body =>
        have hvs := needVars_le vs
        have hbody : Term.need body + 1 ≤ 5 * (Term.render body).length := by
          refine ihN body ?_
          have := needVars_pos vs
          simp only [Term.need] at ht
          omega
        simp only [Term.need, Term.render, List.length_cons, List.length_append]
        omega
      | .matchT scrut cases =>
        have hcs := Term.needCases_le_param cases (fun x hx => by
          refine ihN x.2 ?_
          have := case_need_lt_of_mem hx
          simp only [Term.need] at ht
          omega)
        have hscrut : Term.need scrut + 1 ≤ 5 * (Term.render scrut).length := by
          refine ihN scrut ?_
          have := Term.needCases_pos cases
          simp only [Term.need] at ht
          omega
        simp only [Term.need, Term.render, List.length_cons, List.length_append]
        omega
      | .annot t' attrs =>
        have hattrs := Attribute.needAll_le attrs
        have ht' : Term.need t' + 1 ≤ 5 * (Term.render t').length := by
          refine ihN t' ?_
          have := Attribute.needAll_pos attrs
          simp only [Term.need] at ht
          omega
        simp only [Term.need, Term.render, List.length_cons, List.length_append]
        omega
  exact key t.need t le_rfl

/-- C1: the term printer is a right inverse of the term parser on its image:
whenever `parse` accepts a token list and produces a term, re-rendering that
term to tokens and parsing again yields the same term. -/
theorem parse_roundtrip (ts : List Token) (a : Term) (h : parse ts = some a) :
    parse (Term.render a) = some a := by
  have hpt : parseTerm (5 * ts.length + 2) ts = some (a, []) := by
    simp only [parse] at h
    split at h
    · rename_i t heq
      obtain rfl := Option.some.inj h
      exact heq
    · simp at h
  have hwf : a.wf = true :=
    (parse_wf_all (5 * ts.length + 2)).2.2.2.2.2.2.1 ts a [] hpt
  have hneed := term_need_le a
  have hrt := term_rt a (5 * (Term.render a).length + 2) [] hwf (by omega)
  simp only [List.append_nil] at hrt
  simp only [parse, hrt]

/-- The round-trip theorem applied to the concrete tokens of `(not x)`. -/
theorem parse_roundtrip_witness :
    parse (Term.render exTermC1) = some exTermC1 :=
  parse_roundtrip exToksC1 exTermC1 (by rfl)

end SmtLib
